import Mathlib

/-! # The data store of lab.js (`packages/library/src/data/store.ts`)

A shallow embedding of the `Store` class: rows are JavaScript objects seen as
finite maps from column names to values, the table is an array of rows, and
every method is a function from the store before the call to the store after
it (and the returned value).

Conventions of the embedding:

* a row is a plain JavaScript object: its own enumerable properties in
  insertion order, with `Object.prototype` as its prototype, whose members a
  read of an absent property reaches (`Row.get`); no row has an own property
  named `__proto__` (such an object comes only from `JSON.parse` or a computed
  key), and the prototype of a row is never replaced;
* values are immutable data, so two references to one object are never
  distinguished; numbers are integers; the functions that are members of
  `Object.prototype` are atoms (`Value.builtin`), and `Object.prototype`
  itself, as a value, is an object without enumerable properties;
* lodash is version 4.17.21; what its `pick` does for a name that it reads as
  a path into nested values depends on the members of nested arrays, strings
  and functions and is a parameter (`DeepPaths`);
* strings are compared and matched by their UTF-16 code units, as JavaScript
  does;
* the table is an array without empty slots (`Table<R> = Array<R>`); the one
  call that can leave empty slots, `update` past the end, has a result
  constructor of its own;
* a parameter with a default value is passed explicitly; the defaults are
  constants (`defaultMetadata`, `defaultIdColumns`, `matchAll`);
* a regular expression has no flags, so `test` does not depend on earlier
  calls.
-/

namespace LabJs

/-! ## Values -/

/-- A JavaScript value as it occurs in a cell of a row: a primitive, an array
or a plain object (its properties in order); `builtin name` is the function
that is the member `name` of `Object.prototype` (`Object.prototype.toString`
for `toString`, `Object` for `constructor`). -/
inductive Value where
  | undefined
  | null
  | bool (b : Bool)
  | num (n : Int)
  | str (s : String)
  | arr (items : List Value)
  | obj (fields : List (String × Value))
  | builtin (name : String)

namespace Value

mutual
/-- Structural equality test on values. -/
def beq : Value → Value → Bool
  | undefined, undefined => true
  | null, null => true
  | bool a, bool b => a == b
  | num a, num b => a == b
  | str a, str b => a == b
  | arr a, arr b => beqItems a b
  | obj a, obj b => beqFields a b
  | builtin a, builtin b => a == b
  | _, _ => false
/-- Structural equality test on array items. -/
def beqItems : List Value → List Value → Bool
  | [], [] => true
  | x :: xs, y :: ys => beq x y && beqItems xs ys
  | _, _ => false
/-- Structural equality test on object fields. -/
def beqFields : List (String × Value) → List (String × Value) → Bool
  | [], [] => true
  | (k, x) :: xs, (l, y) :: ys => k == l && beq x y && beqFields xs ys
  | _, _ => false
end

mutual
/-- The lodash `cloneDeep` on a value: arrays and objects are rebuilt
recursively, primitives and functions inside a row are returned as they
are. -/
def cloneDeep : Value → Value
  | arr xs => arr (cloneItems xs)
  | obj fs => obj (cloneFields fs)
  | v => v
/-- Deep copy of the items of an array. -/
def cloneItems : List Value → List Value
  | [] => []
  | x :: xs => cloneDeep x :: cloneItems xs
/-- Deep copy of the fields of an object. -/
def cloneFields : List (String × Value) → List (String × Value)
  | [] => []
  | (k, x) :: xs => (k, cloneDeep x) :: cloneFields xs
end

mutual
theorem beq_sound : ∀ a b : Value, beq a b = true → a = b
  | undefined, undefined, _ => rfl
  | null, null, _ => rfl
  | bool a, bool b, h => by simp [beq] at h; rw [h]
  | num a, num b, h => by simp [beq] at h; rw [h]
  | str a, str b, h => by simp [beq] at h; rw [h]
  | arr a, arr b, h => by
      have := beqItems_sound a b (by simpa [beq] using h)
      rw [this]
  | obj a, obj b, h => by
      have := beqFields_sound a b (by simpa [beq] using h)
      rw [this]
  | builtin a, builtin b, h => by simp [beq] at h; rw [h]
  | undefined, null, h | undefined, bool _, h | undefined, num _, h
  | undefined, str _, h | undefined, arr _, h | undefined, obj _, h
  | undefined, builtin _, h
  | null, undefined, h | null, bool _, h | null, num _, h
  | null, str _, h | null, arr _, h | null, obj _, h
  | null, builtin _, h
  | bool _, undefined, h | bool _, null, h | bool _, num _, h
  | bool _, str _, h | bool _, arr _, h | bool _, obj _, h
  | bool _, builtin _, h
  | num _, undefined, h | num _, null, h | num _, bool _, h
  | num _, str _, h | num _, arr _, h | num _, obj _, h
  | num _, builtin _, h
  | str _, undefined, h | str _, null, h | str _, bool _, h
  | str _, num _, h | str _, arr _, h | str _, obj _, h
  | str _, builtin _, h
  | arr _, undefined, h | arr _, null, h | arr _, bool _, h
  | arr _, num _, h | arr _, str _, h | arr _, obj _, h
  | arr _, builtin _, h
  | obj _, undefined, h | obj _, null, h | obj _, bool _, h
  | obj _, num _, h | obj _, str _, h | obj _, arr _, h
  | obj _, builtin _, h
  | builtin _, undefined, h | builtin _, null, h | builtin _, bool _, h
  | builtin _, num _, h | builtin _, str _, h | builtin _, arr _, h
  | builtin _, obj _, h => by simp [beq] at h
theorem beqItems_sound : ∀ a b : List Value, beqItems a b = true → a = b
  | [], [], _ => rfl
  | x :: xs, y :: ys, h => by
      simp only [beqItems, Bool.and_eq_true] at h
      rw [beq_sound x y h.1, beqItems_sound xs ys h.2]
  | [], _ :: _, h | _ :: _, [], h => by simp [beqItems] at h
theorem beqFields_sound :
    ∀ a b : List (String × Value), beqFields a b = true → a = b
  | [], [], _ => rfl
  | (k, x) :: xs, (l, y) :: ys, h => by
      simp only [beqFields, Bool.and_eq_true, beq_iff_eq] at h
      rw [h.1.1, beq_sound x y h.1.2, beqFields_sound xs ys h.2]
  | [], _ :: _, h | _ :: _, [], h => by simp [beqFields] at h
end

mutual
theorem beq_refl : ∀ a : Value, beq a a = true
  | undefined => rfl
  | null => rfl
  | bool _ => by simp [beq]
  | num _ => by simp [beq]
  | str _ => by simp [beq]
  | arr a => by simpa [beq] using beqItems_refl a
  | obj a => by simpa [beq] using beqFields_refl a
  | builtin _ => by simp [beq]
theorem beqItems_refl : ∀ a : List Value, beqItems a a = true
  | [] => rfl
  | x :: xs => by simp [beqItems, beq_refl x, beqItems_refl xs]
theorem beqFields_refl : ∀ a : List (String × Value), beqFields a a = true
  | [] => rfl
  | (k, x) :: xs => by simp [beqFields, beq_refl x, beqFields_refl xs]
end

instance : DecidableEq Value := fun a b =>
  if h : beq a b = true then isTrue (beq_sound a b h)
  else isFalse (fun e => h (e ▸ beq_refl a))

mutual
theorem cloneDeep_eq : ∀ v : Value, cloneDeep v = v
  | undefined => rfl
  | null => rfl
  | bool _ => rfl
  | num _ => rfl
  | str _ => rfl
  | arr xs => by rw [cloneDeep, cloneItems_eq xs]
  | obj fs => by rw [cloneDeep, cloneFields_eq fs]
  | builtin _ => rfl
theorem cloneItems_eq : ∀ xs : List Value, cloneItems xs = xs
  | [] => rfl
  | x :: xs => by rw [cloneItems, cloneDeep_eq x, cloneItems_eq xs]
theorem cloneFields_eq : ∀ fs : List (String × Value), cloneFields fs = fs
  | [] => rfl
  | (k, x) :: xs => by rw [cloneFields, cloneDeep_eq x, cloneFields_eq xs]
end

end Value

/-! ## Strings as sequences of UTF-16 code units -/

/-- The UTF-16 code units of one character: itself below `0x10000`, a
surrogate pair above. -/
def utf16 (c : Char) : List Nat :=
  if c.toNat < 0x10000 then [c.toNat]
  else [0xD800 + (c.toNat - 0x10000) / 0x400, 0xDC00 + (c.toNat - 0x10000) % 0x400]

/-- Code units of a list of characters. -/
def unitsOf : List Char → List Nat
  | [] => []
  | c :: cs => utf16 c ++ unitsOf cs

/-- The code units of a string: what JavaScript compares and matches. -/
def codeUnits (s : String) : List Nat := unitsOf s.toList

/-- Lexicographic comparison of code unit sequences (`a ≤ b`). -/
def unitsLe : List Nat → List Nat → Bool
  | [], _ => true
  | _ :: _, [] => false
  | a :: as, b :: bs => decide (a < b) || (a == b && unitsLe as bs)

/-- The order `Array.prototype.sort` uses without a comparator: strings by
their UTF-16 code units. -/
def jsLe (a b : String) : Bool := unitsLe (codeUnits a) (codeUnits b)

/-- Insertion into a list sorted by `jsLe`, before the first element that is
not smaller (so that the sort is stable). -/
def sortInsert (x : String) : List String → List String
  | [] => [x]
  | y :: ys => if jsLe x y then x :: y :: ys else y :: sortInsert x ys

/-- The `sort()` method of an array of strings called without a comparator. -/
def jsSort : List String → List String
  | [] => []
  | x :: xs => sortInsert x (jsSort xs)

/-! ## Rows -/

/-- Writes `obj[k] = v` on a property list: an existing property keeps its
place and takes the value, a new one goes to the end. -/
def putEntry (k : String) (v : Value) : List (String × Value) → List (String × Value)
  | [] => [(k, v)]
  | e :: rest => if e.1 = k then (k, v) :: rest else e :: putEntry k v rest

theorem keys_putEntry (k : String) (v : Value) (l : List (String × Value)) :
    (putEntry k v l).map Prod.fst =
      if k ∈ l.map Prod.fst then l.map Prod.fst else l.map Prod.fst ++ [k] := by
  induction l with
  | nil => simp [putEntry]
  | cons e rest ih =>
    by_cases h : e.1 = k
    · simp [putEntry, h]
    · have h' : ¬ k = e.1 := fun x => h x.symm
      simp only [putEntry, h, if_false, List.map_cons, ih, List.mem_cons, h', false_or]
      split <;> simp

theorem nodup_putEntry (k : String) (v : Value) (l : List (String × Value))
    (h : (l.map Prod.fst).Nodup) : ((putEntry k v l).map Prod.fst).Nodup := by
  rw [keys_putEntry]
  split
  · exact h
  · rename_i hk
    exact List.Nodup.append h (List.nodup_singleton k) (by simpa using hk)

theorem keys_cloneFields (l : List (String × Value)) :
    (Value.cloneFields l).map Prod.fst = l.map Prod.fst := by
  rw [Value.cloneFields_eq]

theorem plain_putEntry (k : String) (v : Value) (l : List (String × Value))
    (hk : k ≠ "__proto__") (h : "__proto__" ∉ l.map Prod.fst) :
    "__proto__" ∉ (putEntry k v l).map Prod.fst := by
  rw [keys_putEntry]
  split
  · exact h
  · intro hm
    rcases List.mem_append.1 hm with hm | hm
    · exact h hm
    · exact hk (List.mem_singleton.1 hm).symm

/-- The names of the members of `Object.prototype`, which every plain object
inherits (`Object.getOwnPropertyNames(Object.prototype)`). -/
def objectPrototypeNames : List String :=
  ["constructor", "__defineGetter__", "__defineSetter__", "hasOwnProperty",
   "__lookupGetter__", "__lookupSetter__", "isPrototypeOf", "propertyIsEnumerable",
   "toString", "valueOf", "__proto__", "toLocaleString"]

/-- What a plain object gives for a name it has no own property of: the member
of `Object.prototype` of that name, `undefined` when there is none. The
getter `__proto__` gives `Object.prototype` itself, an object without
enumerable properties; the other members are functions. -/
def inherited (k : String) : Value :=
  if k = "__proto__" then Value.obj []
  else if objectPrototypeNames.contains k then Value.builtin k
  else Value.undefined

/-- A row: a plain JavaScript object, as the list of its own properties (column
name and value) in insertion order; no column name occurs twice, and none is
`__proto__`. Its prototype is `Object.prototype`. -/
structure Row where
  entries : List (String × Value)
  nodup : (entries.map Prod.fst).Nodup
  plain : "__proto__" ∉ entries.map Prod.fst
  deriving DecidableEq

/-- The committed table: an array of rows. -/
abbrev Table := List Row

namespace Row

/-- The empty object `{}`. -/
def empty : Row := ⟨[], List.nodup_nil, List.not_mem_nil _⟩

/-- The names from `Object.keys(row)`. -/
def keys (r : Row) : List String := r.entries.map Prod.fst

/-- The own property `k` of the row, if the row has it. -/
def find? (r : Row) (k : String) : Option Value := r.entries.lookup k

/-- Whether `k` is an own property of the row. -/
def has (r : Row) (k : String) : Bool := (r.find? k).isSome

/-- The read `row[k]`: the own property `k`, and without one what the row
inherits from `Object.prototype`. -/
def get (r : Row) (k : String) : Value :=
  match r.find? k with
  | some v => v
  | none => inherited k

/-- The write `row[k] = v`. For the name `__proto__` the write goes to the
setter of `Object.prototype` and makes no own property; the program writes
that name only on the temporary object of `set`, and lodash `pick` never
writes it. -/
def put (r : Row) (k : String) (v : Value) : Row :=
  if h : k = "__proto__" then r
  else ⟨putEntry k v r.entries, nodup_putEntry k v r.entries r.nodup,
    plain_putEntry k v r.entries h r.plain⟩

/-- The call `Object.assign(target, source)`: every property of `source`, in
order, is written to `target`. -/
def assign (target source : Row) : Row :=
  source.entries.foldl (fun t e => t.put e.1 e.2) target

/-- An object literal `{k1: v1, k2: v2, ...}`; a key `__proto__` in a literal
names the prototype and makes no property. -/
def ofList (l : List (String × Value)) : Row :=
  l.foldl (fun t e => t.put e.1 e.2) empty

/-- The lodash `cloneDeep` on a row. -/
def cloneDeep (r : Row) : Row :=
  ⟨Value.cloneFields r.entries, by rw [keys_cloneFields]; exact r.nodup,
    by rw [keys_cloneFields]; exact r.plain⟩

end Row

/-! ## Regular expressions

The sender filter of `extract` and `select` is a JavaScript `RegExp`, built
from a pattern string where the caller passes a string. The fragment of the
pattern language modelled here: literal characters, `.`, the assertions `^`
and `$`, the quantifiers `*`, `+` and `?` on a single character, and `|`
between alternatives (no flags). -/

/-- One character position of a pattern: a literal code unit or `.`. -/
inductive Atom where
  | unit (u : Nat)
  | dot
  deriving DecidableEq

/-- A term of an alternative. -/
inductive Term where
  | bol
  | eol
  | one (a : Atom)
  | star (a : Atom)
  | plus (a : Atom)
  | opt (a : Atom)
  deriving DecidableEq

/-- A compiled regular expression: its alternatives, each a sequence of terms. -/
structure RegExp where
  alternatives : List (List Term)
  deriving DecidableEq

/-- The syntax characters of the pattern language: `^ $ \ . * + ? ( ) [ ] { } |`. -/
def syntaxUnits : List Nat :=
  [0x5E, 0x24, 0x5C, 0x2E, 0x2A, 0x2B, 0x3F, 0x28, 0x29, 0x5B, 0x5D, 0x7B, 0x7D, 0x7C]

/-- The line terminators, which `.` does not match. -/
def lineTerminators : List Nat := [0x0A, 0x0D, 0x2028, 0x2029]

/-- Splits a pattern at every `|`. -/
def splitBar : List Nat → List (List Nat)
  | [] => [[]]
  | u :: rest =>
    if u = 0x7C then [] :: splitBar rest
    else match splitBar rest with
      | [] => [[u]]
      | a :: as => (u :: a) :: as

/-- Reads the terms of one alternative, left to right; `acc` holds the terms
read so far, last first. A quantifier applies to the single character before
it. `none`: the pattern is not in the modelled fragment (it is either rejected
by `RegExp` with a `SyntaxError` or uses groups, classes, escapes, braces or
lazy quantifiers). -/
def scanTerms : List Term → List Nat → Option (List Term)
  | acc, [] => some acc.reverse
  | acc, u :: rest =>
    if u = 0x5E then scanTerms (Term.bol :: acc) rest
    else if u = 0x24 then scanTerms (Term.eol :: acc) rest
    else if u = 0x2E then scanTerms (Term.one Atom.dot :: acc) rest
    else if u = 0x2A then
      match acc with
      | Term.one a :: acc' => scanTerms (Term.star a :: acc') rest
      | _ => none
    else if u = 0x2B then
      match acc with
      | Term.one a :: acc' => scanTerms (Term.plus a :: acc') rest
      | _ => none
    else if u = 0x3F then
      match acc with
      | Term.one a :: acc' => scanTerms (Term.opt a :: acc') rest
      | _ => none
    else if syntaxUnits.contains u then none
    else scanTerms (Term.one (Atom.unit u) :: acc) rest

/-- Reads every alternative of a pattern. -/
def scanAll : List (List Nat) → Option (List (List Term))
  | [] => some []
  | a :: as =>
    match scanTerms [] a, scanAll as with
    | some t, some ts => some (t :: ts)
    | _, _ => none

namespace RegExp

/-- The constructor `RegExp(source)`. -/
def compile (source : String) : Option RegExp :=
  (scanAll (splitBar (codeUnits source))).map RegExp.mk

end RegExp

/-- Whether the atom matches the code unit. -/
def Atom.accepts : Atom → Nat → Bool
  | Atom.unit u, x => x == u
  | Atom.dot, x => !(lineTerminators.contains x)

/-- One or more repetitions of `a` at the front of the input, then `k` on the
rest. -/
def consume (a : Atom) (k : List Nat → Bool) : List Nat → Bool
  | [] => false
  | x :: xs => a.accepts x && (k xs || consume a k xs)

/-- Whether the terms match a prefix of the input; `atStart` tells whether the
input begins at position 0 of the subject string. -/
def matchHere : List Term → Bool → List Nat → Bool
  | [], _, _ => true
  | Term.bol :: ts, atStart, xs => atStart && matchHere ts atStart xs
  | Term.eol :: ts, atStart, xs => xs.isEmpty && matchHere ts atStart xs
  | Term.one a :: ts, _, xs =>
    match xs with
    | [] => false
    | x :: rest => a.accepts x && matchHere ts false rest
  | Term.star a :: ts, atStart, xs =>
    matchHere ts atStart xs || consume a (fun rest => matchHere ts false rest) xs
  | Term.plus a :: ts, _, xs => consume a (fun rest => matchHere ts false rest) xs
  | Term.opt a :: ts, atStart, xs =>
    matchHere ts atStart xs ||
      match xs with
      | [] => false
      | x :: rest => a.accepts x && matchHere ts false rest

/-- Whether the terms match at some position of the input. -/
def searchFrom (ts : List Term) : Bool → List Nat → Bool
  | atStart, [] => matchHere ts atStart []
  | atStart, x :: xs => matchHere ts atStart (x :: xs) || searchFrom ts false xs

/-- The method `regexp.test(subject)`: whether the expression matches
somewhere in the subject. -/
def RegExp.test (r : RegExp) (subject : String) : Bool :=
  r.alternatives.any (fun ts => searchFrom ts true (codeUnits subject))

/-! ## The store -/

namespace Value

/-- The string conversion of a function that is a member of
`Object.prototype`: the source text of a native function as V8 and
SpiderMonkey print it; the member `constructor` is the function `Object`. -/
def builtinText (name : String) : String :=
  if name = "constructor" then "function Object() \x7b [native code] \x7d"
  else "function " ++ name ++ "() \x7b [native code] \x7d"

mutual
/-- The string an array item contributes to `join`: as `String(v)`, except
that `null` and `undefined` give the empty string. -/
def itemText : Value → String
  | undefined => ""
  | null => ""
  | bool b => if b then "true" else "false"
  | num n => toString n
  | str s => s
  | arr items => joinItems items
  | obj _ => "[object Object]"
  | builtin name => builtinText name
/-- The string conversion of an array: its items joined by commas. -/
def joinItems : List Value → String
  | [] => ""
  | x :: rest => itemText x ++ joinTail rest
/-- The items after the first, each preceded by a comma. -/
def joinTail : List Value → String
  | [] => ""
  | x :: rest => "," ++ itemText x ++ joinTail rest
end

/-- The string conversion of a value (`String(v)`), which `RegExp.test`
applies to its argument. -/
def toText : Value → String
  | undefined => "undefined"
  | null => "null"
  | v => itemText v

end Value

/-- The argument of the sender filter: `r.sender ?? ''` as `test` reads it. -/
def senderText (r : Row) : String :=
  match r.get "sender" with
  | Value.undefined => ""
  | Value.null => ""
  | v => v.toText

/-- One notification on the event channel, with what a listener reading the
store finds at that moment. -/
structure Emission where
  name : String
  data : Table
  staging : Row
  state : Row
  deriving DecidableEq

/-- The data store: the committed table `data`, the private `#state`, the
`staging` row, and the notifications emitted so far. -/
structure Store where
  data : Table
  state : Row
  staging : Row
  emitted : List Emission
  deriving DecidableEq

/-- The default id columns. -/
def defaultIdColumns : List String := ["id", "participant", "participant_id"]

/-- The default metadata columns, moved to the front by `keys`. -/
def defaultMetadata : List String :=
  defaultIdColumns ++ ["sender", "sender_type", "sender_id", "timestamp", "meta"]

/-- The first argument of `set`: a row of values, or one column name (then the
second argument is the value). -/
inductive SetKey where
  | row (p : Row)
  | column (k : String)

/-- The lodash `flatten`: one level of nesting removed. -/
def flatten : List (List String) → List String
  | [] => []
  | l :: ls => l ++ flatten ls

/-- The loop of the lodash `sortedUniq`: a value equal to the last one kept is
dropped. -/
def sortedUniqFrom (seen : String) : List String → List String
  | [] => []
  | x :: xs => if x = seen then sortedUniqFrom seen xs else x :: sortedUniqFrom x xs

/-- The lodash `sortedUniq`: duplicates among neighbours are removed. -/
def sortedUniq : List String → List String
  | [] => []
  | x :: xs => x :: sortedUniqFrom x xs

/-- The lodash `intersection` of two arrays: the values of the first that are
in the second, each once, in the order of the first. -/
def intersection (array other : List String) : List String :=
  array.foldl
    (fun result v => if !result.contains v && other.contains v then result ++ [v] else result) []

/-- The lodash `difference`: the values of the first array not in the second. -/
def difference (array values : List String) : List String :=
  array.filter (fun v => !values.contains v)

/-- The test `/^\w*$/` of lodash (`reIsPlainProp`) on one code unit: a
letter, a digit or the underscore. -/
def isWordUnit (u : Nat) : Bool :=
  (0x30 ≤ u && u ≤ 0x39) || (0x41 ≤ u && u ≤ 0x5A) || u == 0x5F || (0x61 ≤ u && u ≤ 0x7A)

/-- Whether a code unit is a line terminator, which `.` does not match. -/
def isLineTerminator (u : Nat) : Bool := lineTerminators.contains u

/-- The part `[^[\]]*\]` of `reIsDeepProp`: code units other than brackets,
then a closing bracket. -/
def plainTail : List Nat → Bool
  | [] => false
  | x :: rest => if x = 0x5D then true else if x = 0x5B then false else plainTail rest

/-- The part `(?:(?!\1)[^\\]|\\.)*?\1\]` of `reIsDeepProp` after the quote
`q`: code units other than the quote, a backslash taking the next one with
it, then the quote and a closing bracket. -/
def quotedTail (q : Nat) : List Nat → Bool
  | [] => false
  | [_] => false
  | x :: y :: rest =>
    if x = q then y == 0x5D
    else if x = 0x5C then !isLineTerminator y && quotedTail q rest
    else quotedTail q (y :: rest)

/-- The part of `reIsDeepProp` after an opening bracket. -/
def bracketTail : List Nat → Bool
  | [] => false
  | x :: rest => plainTail (x :: rest) || ((x == 0x22 || x == 0x27) && quotedTail x rest)

/-- The search of `reIsDeepProp` in a sequence of code units: a dot, or an
opening bracket with its closing bracket. -/
def deepFrom : List Nat → Bool
  | [] => false
  | x :: rest => x == 0x2E || (x == 0x5B && bracketTail rest) || deepFrom rest

/-- The test of the lodash expression `reIsDeepProp`,
`/\.|\[(?:[^[\]]*|(["\x27])(?:(?!\1)[^\\]|\\.)*?\1)\]/`, on a name. -/
def reIsDeepProp (name : String) : Bool := deepFrom (codeUnits name)

/-- The test `key in object` on a row: an own property or a member of
`Object.prototype`. -/
def hasIn (object : Row) (key : String) : Bool :=
  object.has key || objectPrototypeNames.contains key

/-- The lodash `isKey(value, object)` for a string: whether the name is read
as one property name and not as a path. -/
def isKey (object : Row) (value : String) : Bool :=
  (codeUnits value).all isWordUnit || !reIsDeepProp value || hasIn object value

/-- The lodash `baseSet` (version 4.17.21) with a path of one name: the write
`result[key] = value`, which is left out for the three names that `baseSet`
never writes. -/
def baseSet (result : Row) (key : String) (value : Value) : Row :=
  if key == "__proto__" || key == "constructor" || key == "prototype" then result
  else result.put key value

/-- What the lodash `pick` does with one name that it reads as a path into
nested values (`stringToPath`, `baseGet`, `hasIn`, `baseSet`): the result
object after that step, from the source object, the name and the result object
before the step. It depends on the members of nested arrays, strings and
functions, which a `Value` does not hold, and is a parameter of `pick`. -/
abbrev DeepPaths := Row → String → Row → Row

/-- One turn of the loop of the lodash `basePickBy` as `pick` calls it: a name
that is one property name is copied with `baseSet` when `hasIn` finds it in
the object (own or inherited), its value being the read `object[path]`. -/
def pickStep (deep : DeepPaths) (object : Row) (result : Row) (path : String) : Row :=
  if isKey object path then
    if hasIn object path then baseSet result path (object.get path) else result
  else deep object path result

/-- A column name that the lodash `pick` treats as the name of an own
property and nothing else: not the name of a member of `Object.prototype`, not
`prototype`, and not read as a path. -/
def ordinaryName (c : String) : Bool :=
  !objectPrototypeNames.contains c && c != "prototype" && !reIsDeepProp c

/-- The lodash `pick` with an array of column names. -/
def pick (deep : DeepPaths) (r : Row) (paths : List String) : Row :=
  paths.foldl (pickStep deep r) Row.empty

/-- The sender filter argument of `extract` and `select`: a pattern string or
a regular expression. -/
inductive SenderFilter where
  | pattern (s : String)
  | regexp (r : RegExp)

/-- The expression `RegExp('.*')`, the default sender filter. -/
def matchAll : RegExp := ⟨[[Term.star Atom.dot]]⟩

/-- The filter used: a string is anchored, `RegExp('^' + s + '$')`; `none`
when that construction does not give an expression. -/
def SenderFilter.toRegExp : SenderFilter → Option RegExp
  | SenderFilter.pattern s => RegExp.compile ("^" ++ s ++ "$")
  | SenderFilter.regexp r => some r

/-- The selector argument of `select`: a column name, an array of column
names, a function on column names, or a value of another type. -/
inductive Selector where
  | name (c : String)
  | names (cs : List String)
  | test (p : String → Bool)
  | other

/-- The ways `extract` and `select` end without a result: `invalidSelector` is
the `Error` that `select` throws for a selector that gives no array;
`noRegExp` stands for a pattern string from which the model has no regular
expression (see `scanTerms`), among them those for which `RegExp` throws a
`SyntaxError`. -/
inductive StoreError where
  | invalidSelector
  | noRegExp
  deriving DecidableEq

deriving instance DecidableEq for Except

/-- The result of `update`: `inside s` when the row written lies within the
array or directly at its end, `s` being the store after the call;
`beyond before gap row notice` when the index is past the end: the table after
the call is the table of `before` (the store before the call), then `gap`
empty slots, then `row`, and `notice` is the name of the notification emitted
after the write, following those of `before`; its listeners find that table
with its empty slots. No exception is raised in either case. -/
inductive Updated where
  | inside (s : Store)
  | beyond (before : Store) (gap : Nat) (row : Row) (notice : String)
  deriving DecidableEq

namespace Store

/-- The constructor (`new Store()`): empty table, state and staging row. -/
def new : Store := ⟨[], Row.empty, Row.empty, []⟩

/-- Modelled from the spec: the method `emit` of the base class `Emitter`
(`base/util/emitter`, not among the sources). The notification carries its
name only; listeners read the store, so the store as it is at that moment is
recorded with the name. -/
def emit (s : Store) (name : String) : Store :=
  { s with emitted := s.emitted ++ [⟨name, s.data, s.staging, s.state⟩] }

/-- The method `set(key, value, suppressSetTrigger)`. -/
def set (s : Store) (key : SetKey) (value : Value) (suppressSetTrigger : Bool) : Store :=
  let part : Row :=
    match key with
    | SetKey.row p => p
    | SetKey.column k => Row.empty.put k value
  let s1 : Store :=
    { s with state := s.state.assign part, staging := s.staging.assign part }
  if !suppressSetTrigger then s1.emit "set" else s1

/-- The method `get(key)`. -/
def get (s : Store) (key : String) : Value := s.state.get key

/-- The method `getAny(keys)`. -/
def getAny (s : Store) : List String → Value
  | [] => Value.undefined
  | k :: rest => if s.state.keys.contains k then s.state.get k else getAny s rest

/-- The method `commit()`: the store afterwards and the returned row number. -/
def commit (s : Store) : Store × Nat :=
  let data := s.data ++ [s.staging.cloneDeep]
  let logIndex := data.length - 1
  let s1 : Store := { s with data := data, staging := Row.empty }
  (s1.emit "commit", logIndex)

/-- The method `update(index, callback)`. -/
def update (s : Store) (index : Nat) (callback : Row → Row) : Updated :=
  let row := callback (s.data.getD index Row.empty)
  if index < s.data.length then
    Updated.inside (({ s with data := s.data.set index row } : Store).emit "update")
  else if index = s.data.length then
    Updated.inside (({ s with data := s.data ++ [row] } : Store).emit "update")
  else
    Updated.beyond s (index - s.data.length) row "update"

/-- The method `clear()`. -/
def clear (s : Store) : Store :=
  let s1 := s.emit "clear"
  { s1 with data := [], staging := Row.empty, state := Row.empty }

/-- The method `_hydrate({ data, state })`; an absent field takes its default. -/
def _hydrate (s : Store) (data : Option Table) (state : Option Row) : Store :=
  { s with data := data.getD [], state := state.getD Row.empty }

/-- The method `keys(includeState, prioritize)`. -/
def keys (s : Store) (includeState : Bool) (prioritize : List String) : List String :=
  let keys := s.data.map Row.keys
  let keys := if includeState then keys ++ [s.state.keys] else keys
  let flatKeys := flatten keys
  let flatKeys := jsSort flatKeys
  let uniqueKeys := jsSort (sortedUniq flatKeys)
  let prioritizedKeys := intersection prioritize uniqueKeys
  let remainingKeys := difference uniqueKeys prioritizedKeys
  prioritizedKeys ++ remainingKeys

/-- The method `extract(column, senderRegExp)`. -/
def extract (s : Store) (column : String) (senderRegExp : SenderFilter) :
    Except StoreError (List Value) :=
  match senderRegExp.toRegExp with
  | none => Except.error StoreError.noRegExp
  | some filter =>
    Except.ok ((s.data.filter (fun r => filter.test (senderText r))).map (fun r => r.get column))

/-- The method `select(selector, senderRegExp)`; `deep` is what `pick` does
with a name that it reads as a path. -/
def select (s : Store) (deep : DeepPaths) (selector : Selector) (senderRegExp : SenderFilter) :
    Except StoreError (List Row) :=
  let columns : Option (List String) :=
    match selector with
    | Selector.test p => some ((s.keys false defaultMetadata).filter p)
    | Selector.name c => some [c]
    | Selector.names cs => some cs
    | Selector.other => none
  match columns with
  | none => Except.error StoreError.invalidSelector
  | some columns =>
    match senderRegExp.toRegExp with
    | none => Except.error StoreError.noRegExp
    | some filter =>
      Except.ok ((s.data.filter (fun r => filter.test (senderText r))).map
        (fun r => pick deep r columns))

end Store

/-- The last row of a list that has column `k`. -/
def lastRowWith (rows : List Row) (k : String) : Option Row :=
  rows.reverse.find? (fun r => r.has k)

/-- The row of values a `set` call merges, the object `partial` of `set`: its
argument when that is a row, else the new object after `partial[key] =
value`. -/
def SetKey.part (key : SetKey) (value : Value) : Row :=
  match key with
  | SetKey.row p => p
  | SetKey.column k => Row.empty.put k value

/-- One `set` call: first argument, value, `suppressSetTrigger`. -/
abbrev SetCall := SetKey × Value × Bool

/-- The rows merged by a sequence of `set` calls. -/
def setParts (calls : List SetCall) : List Row :=
  calls.map (fun c => c.1.part c.2.1)

/-- A sequence of `set` calls, made one after the other. -/
def Store.setAll (s : Store) (calls : List SetCall) : Store :=
  calls.foldl (fun t c => t.set c.1 c.2.1 c.2.2) s

/-! ## Export -/

/-- Whether a column name starts with an underscore (`k.startsWith('_')`). -/
def startsWithUnderscore (k : String) : Bool :=
  match codeUnits k with
  | u :: _ => u == 0x5F
  | [] => false

/-- The row without the properties whose name satisfies `drop`. -/
def Row.omit (r : Row) (drop : String → Bool) : Row :=
  ⟨r.entries.filter (fun e => !drop e.1),
    ((List.filter_sublist r.entries).map Prod.fst).nodup r.nodup,
    fun h => r.plain (((List.filter_sublist r.entries).map Prod.fst).subset h)⟩

/-- Modelled from the spec: the helper `cleanData` of `util/clean` (not among
the sources), which "returns the whole table with every key that starts with
`_` omitted from every row". -/
def cleanData (data : Table) : Table :=
  data.map (fun r => r.omit startsWithUnderscore)

/-- The getter `cleanData` of the store. -/
def Store.cleanData (s : Store) : Table := LabJs.cleanData s.data

/-- A row as a value, as `JSON.stringify` receives it. -/
def Row.toValue (r : Row) : Value := Value.obj r.entries

/-- The encoders that the export methods call and that are not among the
sources: `toCsv(data, keys, separator)` of `util/csv` and the built-in
`JSON.stringify`. The export methods take them as a parameter. -/
structure Encoders where
  toCsv : Table → List String → String → String
  stringify : Value → String

/-- The object `new Blob([text], { type: mime })`. -/
structure Blob where
  text : String
  mime : String
  deriving DecidableEq

/-- The exception of `exportBlob`: `Error('Unsupported format ' + format)`. -/
inductive ExportError where
  | unsupportedFormat (format : String)
  deriving DecidableEq

/-- The table of MIME types in `exportBlob`. -/
def mimeTypes : List (String × String) :=
  [("csv", "text/csv"), ("json", "application/json"), ("jsonl", "application/jsonl")]

namespace Store

/-- The method `exportJson(clean)`. -/
def exportJson (s : Store) (enc : Encoders) (clean : Bool) : String :=
  let data := if clean then s.cleanData else s.data
  enc.stringify (Value.arr (data.map Row.toValue))

/-- The method `exportJsonL(clean)`. -/
def exportJsonL (s : Store) (enc : Encoders) (clean : Bool) : String :=
  let data := if clean then s.cleanData else s.data
  String.intercalate "\n" (data.map (fun e => enc.stringify e.toValue))

/-- The method `exportCsv(separator, clean)`. -/
def exportCsv (s : Store) (enc : Encoders) (separator : String) (clean : Bool) : String :=
  let data := if clean then s.cleanData else s.data
  let keys := (s.keys false defaultMetadata).filter
    (fun k => !clean || !startsWithUnderscore k)
  enc.toCsv data keys separator

/-- The method `exportBlob(format, clean)`; the call `exportCsv(undefined,
clean)` in it takes the default separator `','`. -/
def exportBlob (s : Store) (enc : Encoders) (format : String) (clean : Bool) :
    Except ExportError Blob :=
  let text : Except ExportError String :=
    if format = "csv" then Except.ok (s.exportCsv enc "," clean)
    else if format = "json" then Except.ok (s.exportJson enc clean)
    else if format = "jsonl" then Except.ok (s.exportJsonL enc clean)
    else Except.error (ExportError.unsupportedFormat format)
  match text with
  | Except.error e => Except.error e
  | Except.ok text => Except.ok ⟨text, (mimeTypes.lookup format).getD ""⟩

end Store

/-! ## File names -/

/-- Whether a value counts as true in a condition (`v ? a : b`). -/
def Value.truthy : Value → Bool
  | Value.undefined => false
  | Value.null => false
  | Value.bool b => b
  | Value.num n => n != 0
  | Value.str s => s != ""
  | Value.arr _ => true
  | Value.obj _ => true
  | Value.builtin _ => true

namespace Store

/-- The method `guessId(columns)`. -/
def guessId (s : Store) (columns : List String) : Value := s.getAny columns

/-- The method `makeFilename(prefix, extension)`. The helper `dateString` of
`util/dates` is not among the sources: the string that the call
`dateString()` returns is the parameter `dateString`. -/
def makeFilename (s : Store) (dateString : String) (pfx extension : String) : String :=
  let id := s.guessId defaultIdColumns
  pfx ++ "--" ++ (if id.truthy then id.toText ++ "--" else "") ++ dateString ++
    (if extension != "" then "." ++ extension else "")

end Store

/-! ## Vocabulary of the claims -/

/-- The stores reached from a newly constructed store by `set` and `commit`
calls. -/
inductive SetCommitReachable : Store → Prop where
  | new : SetCommitReachable Store.new
  | set {s : Store} (key : SetKey) (value : Value) (quiet : Bool) :
      SetCommitReachable s → SetCommitReachable (s.set key value quiet)
  | commit {s : Store} : SetCommitReachable s → SetCommitReachable s.commit.1

/-- Strictly ascending in the string order. -/
def jsLt (a b : String) : Prop := jsLe a b = true ∧ a ≠ b

/-- The list with every value kept at its first occurrence only. -/
def firstOccurrences : List String → List String
  | [] => []
  | x :: xs => x :: (firstOccurrences xs).filter (fun y => y != x)

/-- Whether `k` is a discovered column name: a key of a committed row or, when
the state is included, of the state. -/
def Store.discovered (s : Store) (includeState : Bool) (k : String) : Bool :=
  s.data.any (fun r => r.has k) || (includeState && s.state.has k)

/-- The value of `uniqueKeys` inside `keys`. -/
def Store.uniqueKeys (s : Store) (includeState : Bool) : List String :=
  jsSort (sortedUniq (jsSort (flatten
    (if includeState then s.data.map Row.keys ++ [s.state.keys] else s.data.map Row.keys))))

/-- The term for a literal code unit. -/
def literal (u : Nat) : Term := Term.one (Atom.unit u)

/-- Whether a string has none of the syntax characters of patterns. -/
def isPlain (p : String) : Bool := (codeUnits p).all (fun u => !syntaxUnits.contains u)

/-- The table of the example: `[{sender:'human', x:1}, {sender:'robot', x:2}]`. -/
def senderRows : Table :=
  [Row.ofList [("sender", Value.str "human"), ("x", Value.num 1)],
   Row.ofList [("sender", Value.str "robot"), ("x", Value.num 2)]]

/-- The stores reached from a newly constructed store by `set`, `commit`,
`update`, `clear` and `_hydrate` calls (an `update` past the end of the table,
which leaves empty slots, is not followed further). -/
inductive Reachable : Store → Prop where
  | new : Reachable Store.new
  | set {s : Store} (key : SetKey) (value : Value) (quiet : Bool) :
      Reachable s → Reachable (s.set key value quiet)
  | commit {s : Store} : Reachable s → Reachable s.commit.1
  | update {s t : Store} (index : Nat) (callback : Row → Row) :
      Reachable s → s.update index callback = Updated.inside t → Reachable t
  | clear {s : Store} : Reachable s → Reachable s.clear
  | hydrate {s : Store} (data : Option Table) (state : Option Row) :
      Reachable s → Reachable (s._hydrate data state)

/-- Every column name of the staging row and of the committed rows is a key of
the state. -/
def Store.Covered (s : Store) : Prop :=
  ∀ k, (s.staging.has k = true ∨ ∃ r ∈ s.data, r.has k = true) → s.state.has k = true

/-- As `Reachable`, where every `update` writes a row whose columns are keys
of the state, and every `_hydrate` passes a state that has the columns of the
rows it passes and of the staging row. -/
inductive ReachableCovering : Store → Prop where
  | new : ReachableCovering Store.new
  | set {s : Store} (key : SetKey) (value : Value) (quiet : Bool) :
      ReachableCovering s → ReachableCovering (s.set key value quiet)
  | commit {s : Store} : ReachableCovering s → ReachableCovering s.commit.1
  | update {s t : Store} (index : Nat) (callback : Row → Row) :
      ReachableCovering s → s.update index callback = Updated.inside t →
      (∀ k, (callback (s.data.getD index Row.empty)).has k = true → s.state.has k = true) →
      ReachableCovering t
  | clear {s : Store} : ReachableCovering s → ReachableCovering s.clear
  | hydrate {s : Store} (data : Option Table) (state : Option Row) :
      ReachableCovering s →
      (∀ k, (s.staging.has k = true ∨ ∃ r ∈ data.getD [], r.has k = true) →
        (state.getD Row.empty).has k = true) →
      ReachableCovering (s._hydrate data state)

/-- The store after `set({a: 1}); commit(); update(0, r => ({a: 2}))` on a new
store, the `set` made with `suppressSetTrigger`. -/
def updatedExample : Store :=
  ⟨[Row.ofList [("a", Value.num 2)]], Row.ofList [("a", Value.num 1)], Row.empty,
    [⟨"commit", [Row.ofList [("a", Value.num 1)]], Row.empty, Row.ofList [("a", Value.num 1)]⟩,
     ⟨"update", [Row.ofList [("a", Value.num 2)]], Row.empty, Row.ofList [("a", Value.num 1)]⟩]⟩

/-- The default `callback` of `update`: `d => d`. -/
def defaultCallback : Row → Row := fun d => d

/-- The array after an `update` call, slot by slot: `some r` for a row,
`none` for an empty slot. -/
def Updated.slots : Updated → List (Option Row)
  | Updated.inside s => s.data.map some
  | Updated.beyond before gap row _ =>
    before.data.map some ++ List.replicate gap none ++ [some row]

/-- The state after an `update` call. -/
def Updated.state : Updated → Row
  | Updated.inside s => s.state
  | Updated.beyond before _ _ _ => before.state

/-- The staging row after an `update` call. -/
def Updated.staging : Updated → Row
  | Updated.inside s => s.staging
  | Updated.beyond before _ _ _ => before.staging

/-- The names of the notifications emitted up to the end of an `update` call,
in order. -/
def Updated.notices : Updated → List String
  | Updated.inside s => s.emitted.map Emission.name
  | Updated.beyond before _ _ notice => before.emitted.map Emission.name ++ [notice]

/-- A `DeepPaths` for the examples, none of which has a name that `pick`
reads as a path: the step leaves the result object as it is. -/
def noDeepPaths : DeepPaths := fun _ _ result => result

/-- The table `[{toString: 1}, {a: 2}]`. -/
def inheritedRows : Table :=
  [Row.ofList [("toString", Value.num 1)], Row.ofList [("a", Value.num 2)]]

/-- The table of the example: `[{a:1, _b:2}, {a:3}]`. -/
def cleanRows : Table :=
  [Row.ofList [("a", Value.num 1), ("_b", Value.num 2)], Row.ofList [("a", Value.num 3)]]

/-- The method `keys` as the design note proposes it, with one sort only: the
names are sorted, neighbouring duplicates are removed, and the result is used
as it is. -/
def Store.keysSingleSort (s : Store) (includeState : Bool) (prioritize : List String) :
    List String :=
  let keys := s.data.map Row.keys
  let keys := if includeState then keys ++ [s.state.keys] else keys
  let uniqueKeys := sortedUniq (jsSort (flatten keys))
  let prioritizedKeys := intersection prioritize uniqueKeys
  prioritizedKeys ++ difference uniqueKeys prioritizedKeys

/-- The store whose table is the `cleanData` of `s`. -/
def Store.cleaned (s : Store) : Store := { s with data := s.cleanData }

/-- The header that `exportCsv` passes to the encoder when `clean` is true. -/
def Store.cleanHeader (s : Store) : List String :=
  (s.keys false defaultMetadata).filter (fun k => !true || !startsWithUnderscore k)

/-! ## Properties of rows -/

theorem lookup_cons_ite (a k : String) (b : Value) (es : List (String × Value)) :
    List.lookup a ((k, b) :: es) = if a = k then some b else List.lookup a es := by
  rw [List.lookup_cons]
  by_cases h : a = k
  · simp [h]
  · have hb : (a == k) = false := by simpa using h
    simp [hb, h]

theorem lookup_putEntry (k : String) (v : Value) (l : List (String × Value)) (k' : String) :
    (putEntry k v l).lookup k' = if k' = k then some v else l.lookup k' := by
  induction l with
  | nil => simp [putEntry, lookup_cons_ite]
  | cons e rest ih =>
    obtain ⟨ek, ev⟩ := e
    by_cases h : ek = k
    · subst h
      by_cases h' : k' = ek <;> simp [putEntry, lookup_cons_ite, h']
    · by_cases h' : k' = ek
      · subst h'
        simp [putEntry, h, lookup_cons_ite]
      · simp [putEntry, h, lookup_cons_ite, h', ih]

namespace Row

theorem ext_entries {r t : Row} (h : r.entries = t.entries) : r = t := by
  cases r; cases t; simp_all

theorem cloneDeep_row_eq (r : Row) : r.cloneDeep = r :=
  ext_entries (Value.cloneFields_eq r.entries)

theorem find?_empty (k : String) : Row.empty.find? k = none := rfl

theorem has_empty (k : String) : Row.empty.has k = false := rfl

/-- A write of the name `__proto__` makes no property. -/
theorem put_proto (r : Row) (v : Value) : r.put "__proto__" v = r := by
  unfold put
  simp

theorem put_entries (r : Row) (k : String) (v : Value) (hk : k ≠ "__proto__") :
    (r.put k v).entries = putEntry k v r.entries := by
  unfold put
  rw [dif_neg hk]

theorem find?_put (r : Row) (k : String) (v : Value) (k' : String) (hk : k ≠ "__proto__") :
    (r.put k v).find? k' = if k' = k then some v else r.find? k' := by
  unfold find?
  rw [put_entries r k v hk]
  exact lookup_putEntry k v r.entries k'

theorem find?_proto (r : Row) : r.find? "__proto__" = none := by
  unfold find?
  rw [List.lookup_eq_none_iff]
  intro p hp
  have : p.1 ≠ "__proto__" := fun e => r.plain (e ▸ List.mem_map_of_mem Prod.fst hp)
  simpa using fun e => this e.symm

theorem has_iff_mem_keys (r : Row) (k : String) : r.has k = true ↔ k ∈ r.keys := by
  unfold has find? keys
  rcases r with ⟨l, hl, hp⟩
  show (List.lookup k l).isSome = true ↔ k ∈ l.map Prod.fst
  clear hl hp
  induction l with
  | nil => simp
  | cons e rest ih =>
    obtain ⟨ek, ev⟩ := e
    by_cases h : k = ek
    · simp [lookup_cons_ite, h]
    · simp only [lookup_cons_ite, List.map_cons, List.mem_cons, h, false_or, if_false]
      exact ih

theorem get_eq (r : Row) (k : String) : r.get k = (r.find? k).getD (inherited k) := by
  unfold get
  cases r.find? k <;> rfl

/-- A name that `Object.prototype` has no member of is read as `undefined`. -/
theorem inherited_of_not_mem {k : String} (h : objectPrototypeNames.contains k = false) :
    inherited k = Value.undefined := by
  have hp : k ≠ "__proto__" := by
    intro e
    subst e
    exact absurd h (by decide)
  unfold inherited
  rw [if_neg hp, h]
  rfl

/-- The name of a member of `Object.prototype` is not read as `undefined`. -/
theorem inherited_of_mem {k : String} (h : objectPrototypeNames.contains k = true) :
    inherited k ≠ Value.undefined := by
  unfold inherited
  by_cases hp : k = "__proto__"
  · rw [if_pos hp]
    intro e
    cases e
  · rw [if_neg hp, h]
    intro e
    cases e

theorem has_eq (r : Row) (k : String) : r.has k = (r.find? k).isSome := rfl

theorem find?_foldl_put (l : List (String × Value)) (hl : (l.map Prod.fst).Nodup)
    (hp : "__proto__" ∉ l.map Prod.fst) (t : Row) (k : String) :
    (l.foldl (fun t e => t.put e.1 e.2) t).find? k = (l.lookup k).or (t.find? k) := by
  induction l generalizing t with
  | nil => simp
  | cons e rest ih =>
    obtain ⟨ek, ev⟩ := e
    simp only [List.map_cons, List.nodup_cons] at hl
    simp only [List.map_cons, List.mem_cons, not_or] at hp
    rw [List.foldl_cons, ih hl.2 hp.2, find?_put _ _ _ _ (fun e => hp.1 e.symm),
      lookup_cons_ite]
    by_cases h : k = ek
    · subst h
      have : rest.lookup k = none := by
        rw [List.lookup_eq_none_iff]
        intro p hp
        have : p.1 ≠ k := fun e => hl.1 (e ▸ List.mem_map_of_mem Prod.fst hp)
        simpa using fun e => this e.symm
      simp [this]
    · simp [h]

/-- A column of the merged row has the value of the source when the source has
the column, and the value of the target otherwise. -/
theorem find?_assign (t p : Row) (k : String) :
    (t.assign p).find? k = (p.find? k).or (t.find? k) :=
  find?_foldl_put p.entries p.nodup p.plain t k

theorem entries_foldl_put (l : List (String × Value)) (t : Row)
    (h : ((t.entries ++ l).map Prod.fst).Nodup) (hp : "__proto__" ∉ l.map Prod.fst) :
    (l.foldl (fun t e => t.put e.1 e.2) t).entries = t.entries ++ l := by
  induction l generalizing t with
  | nil => simp
  | cons e rest ih =>
    simp only [List.map_cons, List.mem_cons, not_or] at hp
    have hput : (t.put e.1 e.2).entries = t.entries ++ [e] := by
      have hk : e.1 ∉ t.entries.map Prod.fst := by
        intro hm
        rw [List.map_append, List.nodup_append] at h
        exact h.2.2 hm (by simp)
      rw [put_entries t e.1 e.2 (fun q => hp.1 q.symm)]
      clear h ih
      generalize t.entries = es at hk
      induction es with
      | nil => rfl
      | cons x xs ihx =>
        simp only [List.map_cons, List.mem_cons, not_or] at hk
        have hx : ¬ x.1 = e.1 := fun q => hk.1 q.symm
        simp [putEntry, hx, ihx hk.2]
    rw [List.foldl_cons, ih (t.put e.1 e.2) (by rw [hput]; simpa using h) hp.2, hput]
    simp

/-- Merging a row into the empty row gives that row. -/
theorem assign_empty (p : Row) : Row.empty.assign p = p :=
  ext_entries (by
    have := entries_foldl_put p.entries Row.empty (by simpa [Row.empty] using p.nodup) p.plain
    simpa [Row.empty] using this)

end Row

theorem lastRowWith_nil (k : String) : lastRowWith [] k = none := rfl

theorem lastRowWith_cons (p : Row) (rest : List Row) (k : String) :
    lastRowWith (p :: rest) k =
      (lastRowWith rest k).or (if p.has k then some p else none) := by
  unfold lastRowWith
  rw [List.reverse_cons, List.find?_append]
  congr 1
  by_cases h : p.has k <;> simp [List.find?_cons, h]

theorem lastRowWith_concat (rows : List Row) (r : Row) (k : String) :
    lastRowWith (rows ++ [r]) k = if r.has k then some r else lastRowWith rows k := by
  unfold lastRowWith
  rw [List.reverse_append, List.reverse_singleton, List.singleton_append, List.find?_cons]
  by_cases h : r.has k <;> simp [h]

theorem lastRowWith_has {rows : List Row} {k : String} {r : Row}
    (h : lastRowWith rows k = some r) : r ∈ rows ∧ r.has k = true := by
  unfold lastRowWith at h
  exact ⟨List.mem_reverse.1 (List.mem_of_find?_eq_some h), by simpa using List.find?_some h⟩

theorem lastRowWith_eq_none {rows : List Row} {k : String} :
    lastRowWith rows k = none ↔ ∀ r ∈ rows, r.has k = false := by
  unfold lastRowWith
  simp [List.find?_eq_none]

/-- Merging rows one after the other: a column has the value of the last row
that has it, and the value of the target when none has it. -/
theorem find?_foldl_assign (parts : List Row) (t : Row) (k : String) :
    (parts.foldl Row.assign t).find? k =
      match lastRowWith parts k with
      | some p => p.find? k
      | none => t.find? k := by
  induction parts generalizing t with
  | nil => simp [lastRowWith_nil]
  | cons p rest ih =>
    rw [List.foldl_cons, ih, lastRowWith_cons]
    cases hr : lastRowWith rest k with
    | some q => simp
    | none =>
      by_cases hp : p.has k
      · simp only [hp, if_true, Option.or, Row.find?_assign]
        rw [Row.has_eq] at hp
        cases hf : p.find? k with
        | some v => rfl
        | none => simp [hf] at hp
      · simp only [hp, Option.or, Row.find?_assign]
        rw [Row.has_eq] at hp
        cases hf : p.find? k with
        | some v => simp [hf] at hp
        | none => rfl

/-! ## Properties of `set` and `commit` -/

/-- The object `partial` that `set(k, v)` builds: `{k: v}`, and `{}` for the
name `__proto__`. -/
theorem part_column_entries (k : String) (v : Value) :
    ((SetKey.column k).part v).entries = if k = "__proto__" then [] else [(k, v)] := by
  show (Row.empty.put k v).entries = _
  by_cases h : k = "__proto__"
  · subst h
    rw [Row.put_proto]
    rfl
  · rw [Row.put_entries _ _ _ h, if_neg h]
    rfl

namespace Store

theorem set_state (s : Store) (key : SetKey) (value : Value) (q : Bool) :
    (s.set key value q).state = s.state.assign (key.part value) := by
  cases key <;> cases q <;> rfl

theorem set_staging (s : Store) (key : SetKey) (value : Value) (q : Bool) :
    (s.set key value q).staging = s.staging.assign (key.part value) := by
  cases key <;> cases q <;> rfl

theorem set_data (s : Store) (key : SetKey) (value : Value) (q : Bool) :
    (s.set key value q).data = s.data := by
  cases key <;> cases q <;> rfl

theorem setAll_staging (s : Store) (calls : List SetCall) :
    (s.setAll calls).staging = (setParts calls).foldl Row.assign s.staging := by
  unfold setAll setParts
  induction calls generalizing s with
  | nil => rfl
  | cons c rest ih => rw [List.foldl_cons, ih, set_staging]; rfl

theorem setAll_state (s : Store) (calls : List SetCall) :
    (s.setAll calls).state = (setParts calls).foldl Row.assign s.state := by
  unfold setAll setParts
  induction calls generalizing s with
  | nil => rfl
  | cons c rest ih => rw [List.foldl_cons, ih, set_state]; rfl

theorem setAll_data (s : Store) (calls : List SetCall) :
    (s.setAll calls).data = s.data := by
  unfold setAll
  induction calls generalizing s with
  | nil => rfl
  | cons c rest ih => rw [List.foldl_cons, ih, set_data]

theorem commit_data (s : Store) : s.commit.1.data = s.data ++ [s.staging] := by
  simp [commit, emit, Row.cloneDeep_row_eq]

theorem commit_index (s : Store) : s.commit.2 = s.data.length := by
  simp [commit]

theorem commit_staging (s : Store) : s.commit.1.staging = Row.empty := rfl

theorem commit_state (s : Store) : s.commit.1.state = s.state := rfl

end Store

/-! ## Properties of the string order -/

theorem utf16_append_inj (c d : Char) (xs ys : List Nat)
    (h : utf16 c ++ xs = utf16 d ++ ys) : c = d ∧ xs = ys := by
  have hc : c.toNat < 0xD800 ∨ (0xDFFF < c.toNat ∧ c.toNat < 0x110000) := c.valid
  have hd : d.toNat < 0xD800 ∨ (0xDFFF < d.toNat ∧ d.toNat < 0x110000) := d.valid
  have hext : c.toNat = d.toNat → c = d := fun e => Char.ext (UInt32.ext e)
  unfold utf16 at h
  by_cases h1 : c.toNat < 0x10000 <;> by_cases h2 : d.toNat < 0x10000
  · simp only [h1, h2, if_true, List.cons_append, List.nil_append, List.cons.injEq] at h
    exact ⟨hext h.1, h.2⟩
  · simp only [h1, h2, if_true, if_false, List.cons_append, List.nil_append,
      List.cons.injEq] at h
    exfalso
    have := h.1
    omega
  · simp only [h1, h2, if_true, if_false, List.cons_append, List.nil_append,
      List.cons.injEq] at h
    exfalso
    have := h.1
    omega
  · simp only [h1, h2, if_false, List.cons_append, List.nil_append, List.cons.injEq] at h
    obtain ⟨e1, e2, e3⟩ := h
    exact ⟨hext (by omega), e3⟩

theorem unitsOf_injective : ∀ a b : List Char, unitsOf a = unitsOf b → a = b
  | [], [], _ => rfl
  | [], d :: ds, h => by
    exfalso
    unfold unitsOf utf16 at h
    split at h <;> simp at h
  | c :: cs, [], h => by
    exfalso
    unfold unitsOf utf16 at h
    split at h <;> simp at h
  | c :: cs, d :: ds, h => by
    have := utf16_append_inj c d (unitsOf cs) (unitsOf ds) h
    rw [this.1, unitsOf_injective cs ds this.2]

theorem codeUnits_injective {a b : String} (h : codeUnits a = codeUnits b) : a = b :=
  String.ext (unitsOf_injective _ _ h)

theorem unitsOf_append (a b : List Char) : unitsOf (a ++ b) = unitsOf a ++ unitsOf b := by
  induction a with
  | nil => rfl
  | cons c cs ih => simp [unitsOf, ih]

theorem codeUnits_append (a b : String) : codeUnits (a ++ b) = codeUnits a ++ codeUnits b := by
  unfold codeUnits
  rw [String.toList, String.data_append, unitsOf_append]
  rfl

theorem unitsLe_total : ∀ a b : List Nat, unitsLe a b = true ∨ unitsLe b a = true
  | [], _ => Or.inl rfl
  | _ :: _, [] => Or.inr rfl
  | a :: as, b :: bs => by
    simp only [unitsLe, Bool.or_eq_true, decide_eq_true_eq, Bool.and_eq_true, beq_iff_eq]
    rcases Nat.lt_trichotomy a b with h | h | h
    · exact Or.inl (Or.inl h)
    · rcases unitsLe_total as bs with t | t
      · exact Or.inl (Or.inr ⟨h, t⟩)
      · exact Or.inr (Or.inr ⟨h.symm, t⟩)
    · exact Or.inr (Or.inl h)

theorem unitsLe_trans : ∀ a b c : List Nat,
    unitsLe a b = true → unitsLe b c = true → unitsLe a c = true
  | [], _, _, _, _ => rfl
  | _ :: _, [], _, h, _ => by simp [unitsLe] at h
  | _ :: _, _ :: _, [], _, h => by simp [unitsLe] at h
  | a :: as, b :: bs, c :: cs, h1, h2 => by
    simp only [unitsLe, Bool.or_eq_true, decide_eq_true_eq, Bool.and_eq_true,
      beq_iff_eq] at h1 h2 ⊢
    rcases h1 with h1 | ⟨e1, t1⟩ <;> rcases h2 with h2 | ⟨e2, t2⟩
    · exact Or.inl (Nat.lt_trans h1 h2)
    · exact Or.inl (e2 ▸ h1)
    · exact Or.inl (e1 ▸ h2)
    · exact Or.inr ⟨e1.trans e2, unitsLe_trans as bs cs t1 t2⟩

theorem unitsLe_antisymm : ∀ a b : List Nat,
    unitsLe a b = true → unitsLe b a = true → a = b
  | [], [], _, _ => rfl
  | [], _ :: _, _, h => by simp [unitsLe] at h
  | _ :: _, [], h, _ => by simp [unitsLe] at h
  | a :: as, b :: bs, h1, h2 => by
    simp only [unitsLe, Bool.or_eq_true, decide_eq_true_eq, Bool.and_eq_true,
      beq_iff_eq] at h1 h2
    rcases h1 with h1 | ⟨e1, t1⟩ <;> rcases h2 with h2 | ⟨e2, t2⟩
    · omega
    · omega
    · omega
    · rw [e1, unitsLe_antisymm as bs t1 t2]

theorem jsLe_total (a b : String) : jsLe a b = true ∨ jsLe b a = true :=
  unitsLe_total _ _

theorem jsLe_trans {a b c : String} (h1 : jsLe a b = true) (h2 : jsLe b c = true) :
    jsLe a c = true :=
  unitsLe_trans _ _ _ h1 h2

theorem jsLe_antisymm {a b : String} (h1 : jsLe a b = true) (h2 : jsLe b a = true) :
    a = b :=
  codeUnits_injective (unitsLe_antisymm _ _ h1 h2)

theorem jsLe_refl (a : String) : jsLe a a = true := by
  rcases jsLe_total a a with h | h <;> exact h

theorem mem_sortInsert (x : String) (l : List String) (k : String) :
    k ∈ sortInsert x l ↔ k = x ∨ k ∈ l := by
  induction l with
  | nil => simp [sortInsert]
  | cons y ys ih =>
    unfold sortInsert
    split
    · simp
    · simp only [List.mem_cons, ih]
      tauto

theorem mem_jsSort (l : List String) (k : String) : k ∈ jsSort l ↔ k ∈ l := by
  induction l with
  | nil => simp [jsSort]
  | cons x xs ih => simp [jsSort, mem_sortInsert, ih]

theorem sorted_sortInsert (x : String) (l : List String)
    (h : l.Pairwise (fun a b => jsLe a b = true)) :
    (sortInsert x l).Pairwise (fun a b => jsLe a b = true) := by
  induction l with
  | nil => simp [sortInsert]
  | cons y ys ih =>
    rw [List.pairwise_cons] at h
    unfold sortInsert
    split
    · rename_i hxy
      refine List.pairwise_cons.2 ⟨?_, List.pairwise_cons.2 h⟩
      intro z hz
      rcases List.mem_cons.1 hz with e | m
      · rw [e]; exact hxy
      · exact jsLe_trans hxy (h.1 z m)
    · rename_i hxy
      have hyx : jsLe y x = true := by
        rcases jsLe_total x y with t | t
        · exact absurd t hxy
        · exact t
      refine List.pairwise_cons.2 ⟨?_, ih h.2⟩
      intro z hz
      rcases (mem_sortInsert x ys z).1 hz with e | m
      · rw [e]; exact hyx
      · exact h.1 z m

theorem sorted_jsSort (l : List String) :
    (jsSort l).Pairwise (fun a b => jsLe a b = true) := by
  induction l with
  | nil => simp [jsSort]
  | cons x xs ih => exact sorted_sortInsert x _ ih

/-- Sorting a sorted list changes nothing. -/
theorem jsSort_of_sorted (l : List String) (h : l.Pairwise (fun a b => jsLe a b = true)) :
    jsSort l = l := by
  induction l with
  | nil => rfl
  | cons x xs ih =>
    rw [List.pairwise_cons] at h
    rw [jsSort, ih h.2]
    cases xs with
    | nil => rfl
    | cons y ys => simp [sortInsert, h.1 y (List.mem_cons_self _ _)]

/-! ## Properties of `keys` -/

theorem mem_flatten (ls : List (List String)) (k : String) :
    k ∈ flatten ls ↔ ∃ l ∈ ls, k ∈ l := by
  induction ls with
  | nil => simp [flatten]
  | cons l rest ih => simp [flatten, ih]

theorem sortedUniqFrom_spec (seen : String) (l : List String)
    (h : (seen :: l).Pairwise (fun a b => jsLe a b = true)) :
    (sortedUniqFrom seen l).Pairwise jsLt ∧
      ∀ k, k ∈ sortedUniqFrom seen l ↔ (k ∈ l ∧ k ≠ seen) := by
  induction l generalizing seen with
  | nil => simp [sortedUniqFrom]
  | cons x xs ih =>
    have hp := List.pairwise_cons.1 h
    have hx := List.pairwise_cons.1 hp.2
    by_cases e : x = seen
    · subst e
      have ih' := ih x hp.2
      simp only [sortedUniqFrom, if_true]
      refine ⟨ih'.1, fun k => ?_⟩
      rw [ih'.2 k, List.mem_cons]
      constructor
      · rintro ⟨m, n⟩; exact ⟨Or.inr m, n⟩
      · rintro ⟨m | m, n⟩
        · exact absurd m n
        · exact ⟨m, n⟩
    · have ih' := ih x hp.2
      simp only [sortedUniqFrom, e, if_false]
      refine ⟨List.pairwise_cons.2 ⟨?_, ih'.1⟩, fun k => ?_⟩
      · intro y hy
        have := (ih'.2 y).1 hy
        exact ⟨hx.1 y this.1, fun q => this.2 q.symm⟩
      · rw [List.mem_cons, ih'.2 k, List.mem_cons]
        constructor
        · rintro (m | ⟨m, n⟩)
          · exact ⟨Or.inl m, m ▸ e⟩
          · refine ⟨Or.inr m, fun q => e ?_⟩
            have h1 : jsLe seen x = true := hp.1 x (List.mem_cons_self _ _)
            have h2 : jsLe x k = true := hx.1 k m
            exact jsLe_antisymm (q ▸ h2) h1
        · rintro ⟨m | m, _⟩
          · exact Or.inl m
          · by_cases q : k = x
            · exact Or.inl q
            · exact Or.inr ⟨m, q⟩

/-- On a sorted list `sortedUniq` gives a strictly ascending list with the
same members. -/
theorem sortedUniq_spec (l : List String) (h : l.Pairwise (fun a b => jsLe a b = true)) :
    (sortedUniq l).Pairwise jsLt ∧ ∀ k, k ∈ sortedUniq l ↔ k ∈ l := by
  cases l with
  | nil => simp [sortedUniq]
  | cons x xs =>
    have hs := sortedUniqFrom_spec x xs h
    have hx := List.pairwise_cons.1 h
    refine ⟨List.pairwise_cons.2 ⟨?_, hs.1⟩, fun k => ?_⟩
    · intro y hy
      have := (hs.2 y).1 hy
      exact ⟨hx.1 y this.1, fun q => this.2 q.symm⟩
    · simp only [sortedUniq, List.mem_cons, hs.2 k]
      constructor
      · rintro (m | ⟨m, _⟩)
        · exact Or.inl m
        · exact Or.inr m
      · rintro (m | m)
        · exact Or.inl m
        · by_cases q : k = x
          · exact Or.inl q
          · exact Or.inr ⟨m, q⟩

theorem mem_firstOccurrences (l : List String) (k : String) :
    k ∈ firstOccurrences l ↔ k ∈ l := by
  induction l with
  | nil => simp [firstOccurrences]
  | cons x xs ih =>
    simp only [firstOccurrences, List.mem_cons, List.mem_filter, ih, bne_iff_ne]
    constructor
    · rintro (m | ⟨m, _⟩)
      · exact Or.inl m
      · exact Or.inr m
    · rintro (m | m)
      · exact Or.inl m
      · by_cases q : k = x
        · exact Or.inl q
        · exact Or.inr ⟨m, q⟩

theorem nodup_firstOccurrences (l : List String) : (firstOccurrences l).Nodup := by
  induction l with
  | nil => simp [firstOccurrences]
  | cons x xs ih =>
    simp only [firstOccurrences, List.nodup_cons, List.mem_filter, bne_self_eq_false,
      Bool.false_eq_true, and_false, not_false_eq_true, true_and]
    exact ih.filter _

/-- A list without repetition is its own list of first occurrences. -/
theorem firstOccurrences_of_nodup (l : List String) (h : l.Nodup) :
    firstOccurrences l = l := by
  induction l with
  | nil => rfl
  | cons x xs ih =>
    rw [List.nodup_cons] at h
    rw [firstOccurrences, ih h.2]
    congr 1
    apply List.filter_eq_self.2
    intro y hy
    have : y ≠ x := fun q => h.1 (q ▸ hy)
    simpa using this

theorem firstOccurrences_filter (q : String → Bool) (l : List String) :
    firstOccurrences (l.filter q) = (firstOccurrences l).filter q := by
  induction l with
  | nil => rfl
  | cons y ys ih =>
    by_cases hq : q y = true
    · simp only [List.filter_cons, hq, if_true, firstOccurrences, ih, List.filter_filter]
      congr 1
      apply List.filter_congr
      intro z _
      exact Bool.and_comm _ _
    · simp only [List.filter_cons, hq, firstOccurrences, ih, List.filter_filter]
      simp only [Bool.false_eq_true, if_false]
      rw [ih]
      apply List.filter_congr
      intro z _
      by_cases hz : q z = true
      · have : z ≠ y := fun e => hq (e ▸ hz)
        simp [hz, this]
      · simp [hz]

theorem intersection_loop (other : List String) (l acc : List String) (h : acc.Nodup) :
    l.foldl (fun result v =>
        if !result.contains v && other.contains v then result ++ [v] else result) acc
      = acc ++ firstOccurrences (l.filter (fun v => !acc.contains v && other.contains v)) := by
  induction l generalizing acc with
  | nil => simp [firstOccurrences]
  | cons x xs ih =>
    rw [List.foldl_cons]
    by_cases hx : (!acc.contains x && other.contains x) = true
    · have hxa : x ∉ acc := by
        simp only [Bool.and_eq_true, Bool.not_eq_true', List.contains_eq_any_beq,
          List.any_eq_false, beq_iff_eq] at hx
        intro m
        exact hx.1 x m rfl
      have hn : (acc ++ [x]).Nodup :=
        List.Nodup.append h (List.nodup_singleton x) (by simpa using hxa)
      simp only [hx, if_true, List.filter_cons, firstOccurrences]
      rw [ih (acc ++ [x]) hn, List.append_assoc, List.singleton_append,
        ← firstOccurrences_filter, List.filter_filter]
      congr 3
      apply List.filter_congr
      intro z _
      by_cases hz : z = x
      · subst hz; simp
      · simp [hz]
    · simp only [hx, Bool.false_eq_true, if_false, List.filter_cons]
      exact ih acc h

/-- The lodash `intersection` lists the values of the first array that are in
the second, each at its first occurrence. -/
theorem intersection_eq (array other : List String) :
    intersection array other
      = firstOccurrences (array.filter (fun v => other.contains v)) := by
  unfold intersection
  rw [intersection_loop other array [] List.nodup_nil]
  simp

theorem Store.keys_unfold (s : Store) (includeState : Bool) (prioritize : List String) :
    s.keys includeState prioritize =
      intersection prioritize (s.uniqueKeys includeState) ++
        difference (s.uniqueKeys includeState)
          (intersection prioritize (s.uniqueKeys includeState)) := rfl

theorem Store.discovered_iff (s : Store) (includeState : Bool) (k : String) :
    s.discovered includeState k = true ↔
      ((∃ r ∈ s.data, r.has k = true) ∨ (includeState = true ∧ s.state.has k = true)) := by
  simp [Store.discovered]

theorem Store.uniqueKeys_spec (s : Store) (includeState : Bool) :
    (s.uniqueKeys includeState).Pairwise jsLt ∧
      ∀ k, k ∈ s.uniqueKeys includeState ↔ s.discovered includeState k = true := by
  unfold Store.uniqueKeys
  generalize hf : flatten
    (if includeState then s.data.map Row.keys ++ [s.state.keys] else s.data.map Row.keys) = flat
  have hu := sortedUniq_spec (jsSort flat) (sorted_jsSort flat)
  have hle : (sortedUniq (jsSort flat)).Pairwise (fun a b => jsLe a b = true) :=
    hu.1.imp (fun h => h.1)
  rw [jsSort_of_sorted _ hle]
  refine ⟨hu.1, fun k => ?_⟩
  rw [hu.2 k, mem_jsSort, ← hf, mem_flatten, Store.discovered_iff]
  cases includeState with
  | false =>
    simp only [Bool.false_eq_true, if_false, List.mem_map, false_and, or_false]
    constructor
    · rintro ⟨l, ⟨r, hr, rfl⟩, hk⟩
      exact ⟨r, hr, (Row.has_iff_mem_keys r k).2 hk⟩
    · rintro ⟨r, hr, hk⟩
      exact ⟨r.keys, ⟨r, hr, rfl⟩, (Row.has_iff_mem_keys r k).1 hk⟩
  | true =>
    simp only [if_true, List.mem_append, List.mem_map, List.mem_singleton, true_and]
    constructor
    · rintro ⟨l, ⟨r, hr, rfl⟩ | rfl, hk⟩
      · exact Or.inl ⟨r, hr, (Row.has_iff_mem_keys r k).2 hk⟩
      · exact Or.inr ((Row.has_iff_mem_keys _ k).2 hk)
    · rintro (⟨r, hr, hk⟩ | hk)
      · exact ⟨r.keys, Or.inl ⟨r, hr, rfl⟩, (Row.has_iff_mem_keys r k).1 hk⟩
      · exact ⟨s.state.keys, Or.inr rfl, (Row.has_iff_mem_keys _ k).1 hk⟩

/-- The two parts of the result of `keys`: the prioritized names that were
discovered, each at its first place in the priority list, and after them the
other discovered names, strictly ascending. -/
theorem Store.keys_parts (s : Store) (includeState : Bool) (prioritize : List String) :
    ∃ rest : List String,
      s.keys includeState prioritize =
        firstOccurrences (prioritize.filter (s.discovered includeState)) ++ rest ∧
      rest.Pairwise jsLt ∧
      ∀ k, k ∈ rest ↔ (s.discovered includeState k = true ∧ k ∉ prioritize) := by
  have hu := s.uniqueKeys_spec includeState
  have hfront : intersection prioritize (s.uniqueKeys includeState) =
      firstOccurrences (prioritize.filter (s.discovered includeState)) := by
    rw [intersection_eq]
    congr 1
    apply List.filter_congr
    intro k _
    by_cases hk : s.discovered includeState k = true
    · rw [hk]; simpa using (hu.2 k).2 hk
    · have : k ∉ s.uniqueKeys includeState := fun m => hk ((hu.2 k).1 m)
      have hk' : s.discovered includeState k = false := by simpa using hk
      rw [hk']; simpa using this
  refine ⟨difference (s.uniqueKeys includeState)
      (intersection prioritize (s.uniqueKeys includeState)), ?_, ?_, fun k => ?_⟩
  · rw [Store.keys_unfold, hfront]
  · exact hu.1.filter _
  · rw [hfront]
    simp only [difference, List.mem_filter, hu.2 k, Bool.not_eq_true',
      List.contains_eq_any_beq, List.any_eq_false, beq_iff_eq]
    constructor
    · rintro ⟨hd, hn⟩
      refine ⟨hd, fun m => hn k ?_ rfl⟩
      rw [mem_firstOccurrences, List.mem_filter]
      exact ⟨m, hd⟩
    · rintro ⟨hd, hn⟩
      refine ⟨hd, fun x hx e => hn ?_⟩
      rw [mem_firstOccurrences, List.mem_filter] at hx
      rw [e]; exact hx.1

/-! ## Properties of the sender filter -/

theorem scanTerms_plain (units : List Nat)
    (h : ∀ u ∈ units, syntaxUnits.contains u = false) (acc : List Term) (tail : List Nat) :
    scanTerms acc (units ++ tail) = scanTerms ((units.map literal).reverse ++ acc) tail := by
  induction units generalizing acc with
  | nil => rfl
  | cons u us ih =>
    have hu := h u (List.mem_cons_self _ _)
    have hs : syntaxUnits.contains u = false := hu
    simp only [syntaxUnits, List.contains_eq_any_beq, List.any_cons, List.any_nil,
      Bool.or_false, Bool.or_eq_false_iff, beq_eq_false_iff_ne, ne_eq] at hu
    obtain ⟨h1, h2, _, h4, h5, h6, h7, _⟩ := hu
    have step : scanTerms acc (u :: (us ++ tail)) = scanTerms (literal u :: acc) (us ++ tail) := by
      rw [scanTerms.eq_def]
      simp only [h1, h2, h4, h5, h6, h7, hs, if_false, Bool.false_eq_true, literal]
    rw [List.cons_append, step, ih (fun v hv => h v (List.mem_cons_of_mem _ hv))]
    simp

theorem splitBar_plain (l : List Nat) (h : ∀ u ∈ l, u ≠ 0x7C) : splitBar l = [l] := by
  induction l with
  | nil => rfl
  | cons u rest ih =>
    rw [splitBar, ih (fun v hv => h v (List.mem_cons_of_mem _ hv))]
    simp [h u (List.mem_cons_self _ _)]

theorem not_bar_of_plain {u : Nat} (h : syntaxUnits.contains u = false) : u ≠ 0x7C := by
  intro e
  subst e
  simp [syntaxUnits] at h

/-- A string without syntax characters, anchored, compiles to the sequence of
its code units between `^` and `$`. -/
theorem compile_anchored_plain (p : String)
    (h : ∀ u ∈ codeUnits p, syntaxUnits.contains u = false) :
    RegExp.compile ("^" ++ p ++ "$")
      = some ⟨[Term.bol :: ((codeUnits p).map literal ++ [Term.eol])]⟩ := by
  have hu : codeUnits ("^" ++ p ++ "$") = 0x5E :: (codeUnits p ++ [0x24]) := by
    rw [codeUnits_append, codeUnits_append]
    rfl
  have hsplit : splitBar (0x5E :: (codeUnits p ++ [0x24])) = [0x5E :: (codeUnits p ++ [0x24])] := by
    apply splitBar_plain
    intro u hu
    rcases List.mem_cons.1 hu with e | m
    · rw [e]; decide
    · rcases List.mem_append.1 m with m | m
      · exact not_bar_of_plain (h u m)
      · rw [List.mem_singleton.1 m]; decide
  have hscan : scanTerms [] (0x5E :: (codeUnits p ++ [0x24]))
      = some (Term.bol :: ((codeUnits p).map literal ++ [Term.eol])) := by
    have step : scanTerms [] (0x5E :: (codeUnits p ++ [0x24]))
        = scanTerms [Term.bol] (codeUnits p ++ [0x24]) := by
      rw [scanTerms.eq_def]
      simp only [if_true]
    rw [step, scanTerms_plain (codeUnits p) h]
    have last : ∀ acc : List Term, scanTerms acc [0x24] = some (Term.eol :: acc).reverse := by
      intro acc
      rw [scanTerms.eq_def]
      simp only [Nat.reduceEqDiff, if_false, if_true]
      rw [scanTerms.eq_def]
    rw [last]
    simp
  rw [RegExp.compile, hu, hsplit]
  simp [scanAll, hscan]

theorem matchHere_literals (lits : List Nat) (atStart : Bool) (xs : List Nat) :
    matchHere (lits.map literal ++ [Term.eol]) atStart xs = decide (xs = lits) := by
  induction lits generalizing atStart xs with
  | nil => cases xs <;> simp [matchHere]
  | cons u us ih =>
    cases xs with
    | nil => simp [matchHere, literal]
    | cons x rest =>
      simp only [List.map_cons, List.cons_append, literal, matchHere, Atom.accepts,
        List.append_eq]
      have := ih false rest
      simp only [literal] at this
      rw [this]
      by_cases hx : x = u <;> by_cases hr : rest = us <;> simp [hx, hr]

theorem searchFrom_bol_later (ts : List Term) (xs : List Nat) :
    searchFrom (Term.bol :: ts) false xs = false := by
  induction xs with
  | nil => simp [searchFrom, matchHere]
  | cons x rest ih => simp [searchFrom, matchHere, ih]

theorem searchFrom_bol (ts : List Term) (xs : List Nat) :
    searchFrom (Term.bol :: ts) true xs = matchHere ts true xs := by
  cases xs with
  | nil => simp [searchFrom, matchHere]
  | cons x rest => simp [searchFrom, matchHere, searchFrom_bol_later]

/-- The anchored expression of a plain string matches that string only. -/
theorem test_anchored_plain (p subject : String) :
    RegExp.test ⟨[Term.bol :: ((codeUnits p).map literal ++ [Term.eol])]⟩ subject
      = decide (subject = p) := by
  simp only [RegExp.test, List.any_cons, List.any_nil, Bool.or_false, searchFrom_bol,
    matchHere_literals]
  by_cases h : subject = p
  · simp [h]
  · have : codeUnits subject ≠ codeUnits p := fun e => h (codeUnits_injective e)
    simp [h, this]

/-- The default sender filter matches every string. -/
theorem matchAll_test (subject : String) : matchAll.test subject = true := by
  unfold RegExp.test matchAll
  cases codeUnits subject <;> simp [searchFrom, matchHere]

theorem compile_matchAll : RegExp.compile ".*" = some matchAll := by decide

theorem not_guarded_of_ordinary {c : String} (h : ordinaryName c = true) :
    (c == "__proto__" || c == "constructor" || c == "prototype") = false := by
  unfold ordinaryName at h
  simp only [Bool.and_eq_true, Bool.not_eq_true', bne_iff_ne, ne_eq] at h
  obtain ⟨⟨h1, h2⟩, _⟩ := h
  have hp : c ≠ "__proto__" := by
    intro e; subst e
    exact absurd h1 (by decide)
  have hc : c ≠ "constructor" := by
    intro e; subst e
    exact absurd h1 (by decide)
  simp [hp, hc, h2]

theorem ne_proto_of_ordinary {c : String} (h : ordinaryName c = true) : c ≠ "__proto__" := by
  intro e
  subst e
  exact absurd h (by decide)

/-- For an ordinary name, a turn of the loop of `pick` copies the property when
the row has it and does nothing otherwise. -/
theorem pickStep_ordinary (deep : DeepPaths) (r result : Row) {c : String}
    (h : ordinaryName c = true) :
    pickStep deep r result c = if r.has c then result.put c (r.get c) else result := by
  have hg := not_guarded_of_ordinary h
  unfold ordinaryName at h
  simp only [Bool.and_eq_true, Bool.not_eq_true', bne_iff_ne, ne_eq] at h
  obtain ⟨⟨h1, _⟩, h3⟩ := h
  unfold pickStep isKey hasIn baseSet
  simp only [h1, h3, hg, Bool.not_false, Bool.or_true, Bool.true_or, Bool.or_false, if_true,
    Bool.false_eq_true, if_false]

theorem find?_pick_loop (deep : DeepPaths) (r : Row) (cols : List String)
    (hc : ∀ c ∈ cols, ordinaryName c = true) (acc : Row) (k : String) :
    (cols.foldl (pickStep deep r) acc).find? k
      = if k ∈ cols ∧ r.has k = true then r.find? k else acc.find? k := by
  induction cols generalizing acc with
  | nil => simp
  | cons c rest ih =>
    have hco := hc c (List.mem_cons_self _ _)
    have hne := ne_proto_of_ordinary hco
    rw [List.foldl_cons, ih (fun x hx => hc x (List.mem_cons_of_mem _ hx)),
      pickStep_ordinary deep r acc hco]
    by_cases hk : k ∈ rest ∧ r.has k = true
    · simp [hk]
    · by_cases hkc : k = c
      · subst hkc
        by_cases hh : r.has k = true
        · have hf : r.find? k = some (r.get k) := by
            rw [Row.has_eq] at hh
            rw [Row.get_eq]
            cases hv : r.find? k with
            | some v => rfl
            | none => simp [hv] at hh
          simp [hh, Row.find?_put _ _ _ _ hne, hf]
        · simp [hh]
      · have : ¬ (k ∈ c :: rest ∧ r.has k = true) := by
          rintro ⟨m, hh⟩
          rcases List.mem_cons.1 m with e | m
          · exact hkc e
          · exact hk ⟨m, hh⟩
        rw [if_neg hk, if_neg this]
        by_cases hh : r.has c = true
        · simp [hh, Row.find?_put _ _ _ _ hne, hkc]
        · simp [hh]

/-- For ordinary names the row `pick` returns has exactly the listed columns
that the row has, each with the value of the row. -/
theorem find?_pick (deep : DeepPaths) (r : Row) (cols : List String)
    (hc : ∀ c ∈ cols, ordinaryName c = true) (k : String) :
    (pick deep r cols).find? k = if k ∈ cols then r.find? k else none := by
  unfold pick
  rw [find?_pick_loop deep r cols hc, Row.find?_empty]
  by_cases hk : k ∈ cols
  · by_cases hh : r.has k = true
    · simp [hk, hh]
    · have : r.find? k = none := by
        rw [Row.has_eq] at hh
        cases hv : r.find? k with
        | some v => simp [hv] at hh
        | none => rfl
      simp [hk, hh, this]
  · simp [hk]

/-! ## Properties of reachable stores -/

theorem has_assign (t p : Row) (k : String) :
    (t.assign p).has k = (p.has k || t.has k) := by
  rw [Row.has_eq, Row.has_eq, Row.has_eq, Row.find?_assign]
  cases p.find? k <;> simp

theorem Store.update_inside {s t : Store} {index : Nat} {callback : Row → Row}
    (h : s.update index callback = Updated.inside t) :
    t.state = s.state ∧ t.staging = s.staging ∧
      ∀ r ∈ t.data, r ∈ s.data ∨ r = callback (s.data.getD index Row.empty) := by
  unfold Store.update at h
  by_cases h1 : index < s.data.length
  · simp only [h1, if_true, Updated.inside.injEq] at h
    subst h
    refine ⟨rfl, rfl, fun r hr => ?_⟩
    have hr' : r ∈ s.data.set index (callback (s.data.getD index Row.empty)) := hr
    rcases List.mem_or_eq_of_mem_set hr' with m | e
    · exact Or.inl m
    · exact Or.inr e
  · by_cases h2 : index = s.data.length
    · subst h2
      simp only [Nat.lt_irrefl, if_true, if_false, Updated.inside.injEq] at h
      subst h
      refine ⟨rfl, rfl, fun r hr => ?_⟩
      have hr' : r ∈ s.data ++ [callback (s.data.getD s.data.length Row.empty)] := hr
      rcases List.mem_append.1 hr' with m | m
      · exact Or.inl m
      · exact Or.inr (List.mem_singleton.1 m)
    · simp [h1, h2] at h

theorem has_singleton (c : String) (v : Value) (k : String) (hc : c ≠ "__proto__") :
    (Row.ofList [(c, v)]).has k = decide (k = c) := by
  simp [Row.ofList, Row.has_eq, Row.find?_put _ _ _ _ hc, Row.find?_empty]
  by_cases h : k = c <;> simp [h]

/-- In a store reached by `set` and `commit` calls the state is the staging
row laid over the last committed values. -/
theorem state_find?_of_reachable {s : Store} (h : SetCommitReachable s) (k : String) :
    s.state.find? k =
      (s.staging.find? k).or ((lastRowWith s.data k).bind (fun r => r.find? k)) := by
  induction h with
  | new => rfl
  | set key value quiet _ ih =>
    rw [Store.set_state, Store.set_staging, Store.set_data, Row.find?_assign,
      Row.find?_assign, ih]
    cases (key.part value).find? k <;> simp
  | @commit t _ ih =>
    rw [Store.commit_state, Store.commit_staging, Store.commit_data, ih,
      lastRowWith_concat, Row.find?_empty, Row.has_eq]
    cases hf : t.staging.find? k <;> simp [hf]

/-! ## Claims on `set`, `get`, `getAny` and `commit` -/

/-- C1: after any sequence of `set` calls (either call form) followed by one
`commit`, the table is the previous table with exactly one row appended, the
earlier rows unchanged at their indices; the appended row is the earlier
staging row merged with the rows of the calls in call order, a column taking
the value of the last call that wrote it (and the staging value when no call
wrote it); starting from an empty staging row its columns are exactly those of
the rows of the calls; `commit` returns the previous table length; and the
staging row is empty afterwards. The row of a call `set(k, v)` is the object
`partial` that `set` builds, `{k: v}`, which for the name `__proto__` has no
column: `set('__proto__', 1); commit()` on a new store appends `{}`. -/
theorem C1_sets_then_commit (s : Store) (calls : List SetCall) :
    (s.setAll calls).commit.1.data
        = s.data ++ [(setParts calls).foldl Row.assign s.staging] ∧
    (s.setAll calls).commit.1.data.length = s.data.length + 1 ∧
    (s.setAll calls).commit.1.data.take s.data.length = s.data ∧
    (∀ k, ((setParts calls).foldl Row.assign s.staging).find? k =
        match lastRowWith (setParts calls) k with
        | some p => p.find? k
        | none => s.staging.find? k) ∧
    ((({ s with staging := Row.empty } : Store).setAll calls).commit.1.data
        = s.data ++ [(setParts calls).foldl Row.assign Row.empty]) ∧
    (∀ k, ((setParts calls).foldl Row.assign Row.empty).has k = true ↔
        ∃ p ∈ setParts calls, p.has k = true) ∧
    (s.setAll calls).commit.2 = s.data.length ∧
    (s.setAll calls).commit.1.staging = Row.empty ∧
    (∀ (k : String) (v : Value), ((SetKey.column k).part v).entries
        = if k = "__proto__" then [] else [(k, v)]) ∧
    (Store.new.setAll [(SetKey.column "__proto__", Value.num 1, true)]).commit.1.data
      = [Row.empty] := by
  have hd : (s.setAll calls).commit.1.data
      = s.data ++ [(setParts calls).foldl Row.assign s.staging] := by
    rw [Store.commit_data, Store.setAll_data, Store.setAll_staging]
  refine ⟨hd, ?_, ?_, ?_, ?_, ?_, ?_, ?_, ?_, by decide⟩
  · rw [hd]; simp
  · rw [hd]; exact List.take_left _ _
  · intro k; exact find?_foldl_assign _ _ k
  · rw [Store.commit_data, Store.setAll_data, Store.setAll_staging]
  · intro k
    rw [Row.has_eq, find?_foldl_assign, Row.find?_empty]
    cases hr : lastRowWith (setParts calls) k with
    | some p =>
      have hp := lastRowWith_has hr
      simp only [← Row.has_eq, hp.2, true_iff]
      exact ⟨p, hp.1, hp.2⟩
    | none =>
      rw [lastRowWith_eq_none] at hr
      simp only [Option.isSome_none, Bool.false_eq_true, false_iff, not_exists, not_and]
      intro p hp
      simp [hr p hp]
  · rw [Store.commit_index, Store.setAll_data]
  · rfl
  · intro k v
    exact part_column_entries k v

/-- C2: after `set(p)`, every column of `p` holds the value of `p` in the
staging row and in the state, every other column keeps its value or absence in
both, and the committed table is unchanged; `set(k, v)` is `set(p)` with `p`
the object `partial` that `set` builds by `partial[k] = v`: the row `{k: v}`,
and for the name `__proto__`, which that assignment does not make a property,
the row `{}`, so that `set('__proto__', v)` writes nothing. -/
theorem C2_set_merges (s : Store) (p : Row) (k : String) (v w : Value) (quiet : Bool) :
    (∀ c, (s.set (SetKey.row p) w quiet).staging.find? c =
        if p.has c then p.find? c else s.staging.find? c) ∧
    (∀ c, (s.set (SetKey.row p) w quiet).state.find? c =
        if p.has c then p.find? c else s.state.find? c) ∧
    (s.set (SetKey.row p) w quiet).data = s.data ∧
    s.set (SetKey.column k) v quiet = s.set (SetKey.row (Row.ofList [(k, v)])) w quiet ∧
    (Row.ofList [(k, v)]).entries = (if k = "__proto__" then [] else [(k, v)]) ∧
    s.set (SetKey.column "__proto__") v true = s := by
  have key : ∀ t : Row, ∀ c, (t.assign p).find? c =
      if p.has c then p.find? c else t.find? c := by
    intro t c
    rw [Row.find?_assign, Row.has_eq]
    cases p.find? c <;> simp
  refine ⟨fun c => ?_, fun c => ?_, Store.set_data _ _ _ _, ?_, part_column_entries k v, ?_⟩
  · rw [Store.set_staging]; exact key _ c
  · rw [Store.set_state]; exact key _ c
  · cases quiet <;> rfl
  · rfl

/-- C3: `commit` leaves the state unchanged: for every column name `get`
right after `commit()` equals `get` right before it; for instance after
`set({a: 1}); commit()` the value of `get('a')` is 1. -/
theorem C3_commit_keeps_state (s : Store) (k : String) :
    s.commit.1.get k = s.get k ∧
    ((Store.new.set (SetKey.row (Row.ofList [("a", Value.num 1)])) Value.undefined
        false).commit.1.get "a" = Value.num 1) :=
  ⟨rfl, by decide⟩

/-- C4: in every store reached from a new store by `set` and `commit` calls,
`get(k)` is the staging row's value for `k` if the staging row has `k`;
otherwise the value of `k` in the last committed row that has `k`; otherwise,
`k` occurring nowhere, it is what the empty state object inherits for `k`:
`undefined` for a name that `Object.prototype` has no member of, and that
member, which is not `undefined`, for the others, where the documentation of
`get` ("value of the state for that column") and the claim have `undefined`. -/
theorem C4_get_reads_latest (s : Store) (h : SetCommitReachable s) (k : String) :
    (s.get k =
      if s.staging.has k then s.staging.get k
      else match lastRowWith s.data k with
        | some r => r.get k
        | none => inherited k) ∧
    (objectPrototypeNames.contains k = false → inherited k = Value.undefined) ∧
    (objectPrototypeNames.contains k = true → inherited k ≠ Value.undefined) := by
  refine ⟨?_, Row.inherited_of_not_mem, Row.inherited_of_mem⟩
  unfold Store.get
  rw [Row.get_eq, state_find?_of_reachable h k, Row.has_eq]
  cases hf : s.staging.find? k with
  | some v => simp [Row.get_eq, hf]
  | none =>
    cases hr : lastRowWith s.data k with
    | some r =>
      have hh := (lastRowWith_has hr).2
      rw [Row.has_eq] at hh
      cases hv : r.find? k with
      | some v => simp [Row.get_eq, hv]
      | none => simp [hv] at hh
    | none => simp

/-- C4 at the store after `set({a: 1}); commit(); set('b', 2); commit()`. -/
theorem C4_get_reads_latest_witness :
    SetCommitReachable
      (((Store.new.set (SetKey.row (Row.ofList [("a", Value.num 1)])) Value.undefined
        false).commit.1.set (SetKey.column "b") (Value.num 2) false).commit.1) ∧
    (((Store.new.set (SetKey.row (Row.ofList [("a", Value.num 1)])) Value.undefined
        false).commit.1.set (SetKey.column "b") (Value.num 2) false).commit.1).get "a"
      = Value.num 1 :=
  ⟨.commit (.set _ _ _ (.commit (.set _ _ _ .new))),
    (C4_get_reads_latest _ (.commit (.set _ _ _ (.commit (.set _ _ _ .new)))) "a").1.trans
      (by decide)⟩

/-- C4, as stated, fails: on a newly constructed store the name `toString`
occurs nowhere (not in the staging row, not in a committed row, not among the
keys of the state, and `getAny` gives `undefined` for it), and `get('toString')`
is the function `Object.prototype.toString`, not `undefined`. -/
theorem C4_get_reads_prototype :
    SetCommitReachable Store.new ∧
    Store.new.staging.has "toString" = false ∧
    lastRowWith Store.new.data "toString" = none ∧
    Store.new.keys true defaultMetadata = [] ∧
    Store.new.getAny ["toString"] = Value.undefined ∧
    Store.new.get "toString" = Value.builtin "toString" ∧
    Store.new.get "toString" ≠ Value.undefined :=
  ⟨SetCommitReachable.new, by decide, by decide, by decide, by decide, by decide, by decide⟩

/-- C5, as stated, fails: after `_hydrate({data: [{a: 1}], state: {}})` on a
new store the committed row has the column `a` and the state has no key `a`. -/
theorem C5_hydrate_uncovered :
    Reachable (Store.new._hydrate (some [Row.ofList [("a", Value.num 1)]]) (some Row.empty)) ∧
    ¬ (Store.new._hydrate (some [Row.ofList [("a", Value.num 1)]]) (some Row.empty)).Covered := by
  refine ⟨Reachable.hydrate _ _ Reachable.new, fun h => ?_⟩
  have := h "a" (Or.inr ⟨Row.ofList [("a", Value.num 1)], by decide, by decide⟩)
  exact absurd this (by decide)

/-- C5, amended: in every store reached from a new store by `set`, `commit`
and `clear` calls, by `update` calls whose new row has only columns that are
keys of the state, and by `_hydrate` calls whose state has every column of the
rows passed and of the staging row, every column name that occurs in the
staging row or in a committed row is a key of the state. -/
theorem C5_state_covers_columns (s : Store) (h : ReachableCovering s) : s.Covered := by
  induction h with
  | new =>
    intro k hk
    rcases hk with hk | ⟨r, hr, _⟩
    · exact absurd hk (by simp [Store.new, Row.has_empty])
    · simp [Store.new] at hr
  | set key value quiet _ ih =>
    intro k hk
    rw [Store.set_state, has_assign]
    rw [Store.set_staging, has_assign, Store.set_data] at hk
    rcases hk with hk | hk
    · rcases Bool.or_eq_true _ _ ▸ hk with hp | hs
      · simp [hp]
      · simp [ih k (Or.inl hs)]
    · simp [ih k (Or.inr hk)]
  | @commit t _ ih =>
    intro k hk
    rw [Store.commit_state]
    rw [Store.commit_staging, Store.commit_data] at hk
    rcases hk with hk | ⟨r, hr, hk⟩
    · simp [Row.has_empty] at hk
    · rcases List.mem_append.1 hr with m | m
      · exact ih k (Or.inr ⟨r, m, hk⟩)
      · rw [List.mem_singleton.1 m] at hk
        exact ih k (Or.inl hk)
  | update index callback _ hu hc ih =>
    intro k hk
    obtain ⟨h1, h2, h3⟩ := Store.update_inside hu
    rw [h1]
    rw [h2] at hk
    rcases hk with hk | ⟨r, hr, hk⟩
    · exact ih k (Or.inl hk)
    · rcases h3 r hr with m | e
      · exact ih k (Or.inr ⟨r, m, hk⟩)
      · exact hc k (e ▸ hk)
  | clear _ _ =>
    intro k hk
    rcases hk with hk | ⟨r, hr, _⟩
    · simp [Store.clear, Row.has_empty] at hk
    · simp [Store.clear] at hr
  | hydrate data state _ hc _ =>
    intro k hk
    exact hc k hk

/-- C5 amended at the store after `set({a: 1}); commit();
update(0, r => ({a: 2})); _hydrate({data: [{a: 3}], state: {a: 4}})`. -/
theorem C5_state_covers_columns_witness :
    ReachableCovering (updatedExample._hydrate (some [Row.ofList [("a", Value.num 3)]])
      (some (Row.ofList [("a", Value.num 4)]))) ∧
    (updatedExample._hydrate (some [Row.ofList [("a", Value.num 3)]])
      (some (Row.ofList [("a", Value.num 4)]))).Covered := by
  have hr : ReachableCovering (updatedExample._hydrate (some [Row.ofList [("a", Value.num 3)]])
      (some (Row.ofList [("a", Value.num 4)]))) := by
    refine ReachableCovering.hydrate _ _
      (ReachableCovering.update 0 (fun _ => Row.ofList [("a", Value.num 2)])
        (ReachableCovering.commit (ReachableCovering.set
          (SetKey.row (Row.ofList [("a", Value.num 1)])) Value.undefined true
          ReachableCovering.new)) (by decide) ?_) ?_
    · intro k hk
      have hk' : (Row.ofList [("a", Value.num 2)]).has k = true := hk
      rw [has_singleton _ _ _ (by decide)] at hk'
      rw [of_decide_eq_true hk']
      decide
    · intro k hk
      rcases hk with hk | ⟨r, hr, hk⟩
      · exact absurd hk (by simp [updatedExample, Row.has_empty])
      · have hr' : r = Row.ofList [("a", Value.num 3)] := by simpa using hr
        rw [hr', has_singleton _ _ _ (by decide)] at hk
        rw [of_decide_eq_true hk]
        decide
  exact ⟨hr, C5_state_covers_columns _ hr⟩

/-- C6: `getAny(ks)` returns the state value of the first element of `ks`
that is a key of the state, presence and not truthiness deciding (a key whose
value is 0, false or the empty string is returned), and `undefined` when no
element of `ks` is a key of the state, in particular for the empty list. -/
theorem C6_getAny_first_present (s : Store) (ks : List String) :
    (s.getAny ks =
      match ks.find? (fun k => s.state.has k) with
      | some k => s.state.get k
      | none => Value.undefined) ∧
    s.getAny [] = Value.undefined ∧
    (∀ (d : Table) (e : List Emission) (g : Row) (v : Value),
      Store.getAny ⟨d, Row.ofList [("a", v), ("b", Value.num 1)], g, e⟩ ["z", "a", "b"] = v) := by
  refine ⟨?_, rfl, ?_⟩
  · induction ks with
    | nil => rfl
    | cons k rest ih =>
      have hk : s.state.keys.contains k = s.state.has k := by
        by_cases h : s.state.has k = true
        · rw [h]; simpa using (Row.has_iff_mem_keys _ _).1 h
        · have h' : s.state.has k = false := by simpa using h
          rw [h']
          have : k ∉ s.state.keys := fun m => h ((Row.has_iff_mem_keys _ _).2 m)
          simpa using this
      rw [Store.getAny, hk, List.find?_cons]
      by_cases h : s.state.has k = true
      · simp [h]
      · have h' : s.state.has k = false := by simpa using h
        simp only [h', Bool.false_eq_true, if_false]
        exact ih
  · intro d e g v
    rfl

/-! ## Claims on `keys` -/

/-- C7: `keys(includeState, P)` is the list of the elements of `P` that are
discovered column names, in the order they have in `P` (each listed once, at
its first place in `P`), followed by all other discovered column names in
ascending string order; `keys(true, ['b','a'])` on the rows
`[{a:1,b:2},{c:3}]` with an empty state is `['b','a','c']`. -/
theorem C7_keys_order (s : Store) (includeState : Bool) (P : List String) :
    (∃ rest : List String,
      s.keys includeState P = firstOccurrences (P.filter (s.discovered includeState)) ++ rest ∧
      rest.Pairwise jsLt ∧
      ∀ k, k ∈ rest ↔ (s.discovered includeState k = true ∧ k ∉ P)) ∧
    (∃ rest : List String,
      s.keys includeState (firstOccurrences P)
        = (firstOccurrences P).filter (s.discovered includeState) ++ rest ∧
      rest.Pairwise jsLt ∧
      ∀ k, k ∈ rest ↔ (s.discovered includeState k = true ∧ k ∉ P)) ∧
    Store.keys ⟨[Row.ofList [("a", Value.num 1), ("b", Value.num 2)],
        Row.ofList [("c", Value.num 3)]], Row.empty, Row.empty, []⟩ true ["b", "a"]
      = ["b", "a", "c"] := by
  refine ⟨s.keys_parts includeState P, ?_, by decide⟩
  obtain ⟨rest, h1, h2, h3⟩ := s.keys_parts includeState (firstOccurrences P)
  refine ⟨rest, ?_, h2, fun k => ?_⟩
  · rw [h1, firstOccurrences_of_nodup]
    exact (nodup_firstOccurrences P).filter _
  · rw [h3 k, mem_firstOccurrences]

/-- C8: the list returned by `keys` contains no column name twice, also for a
priority list with repeated entries, and a name is in it exactly when it is a
key of some committed row or, with `includeState`, a key of the state; so a
name of the priority list that occurs in no row and not in the included state
is not in it. -/
theorem C8_keys_members (s : Store) (includeState : Bool) (P : List String) :
    (s.keys includeState P).Nodup ∧
    (∀ k, k ∈ s.keys includeState P ↔
      ((∃ r ∈ s.data, r.has k = true) ∨ (includeState = true ∧ s.state.has k = true))) ∧
    (Store.keys ⟨[Row.ofList [("a", Value.num 1)]], Row.empty, Row.empty, []⟩ false
      ["a", "z", "a"] = ["a"]) := by
  obtain ⟨rest, h1, h2, h3⟩ := s.keys_parts includeState P
  refine ⟨?_, fun k => ?_, by decide⟩
  · rw [h1]
    refine List.Nodup.append (nodup_firstOccurrences _) (h2.imp (fun h => h.2)) ?_
    intro k hk hr
    rw [mem_firstOccurrences, List.mem_filter] at hk
    exact ((h3 k).1 hr).2 hk.1
  · rw [h1, List.mem_append, mem_firstOccurrences, List.mem_filter, h3 k,
      ← Store.discovered_iff]
    by_cases hp : k ∈ P <;> simp [hp]

/-! ## Claims on `extract` and `select` -/

/-- C9, as stated, fails: `extract('x', 'h.man')` on
`[{sender:'human', x:1}, {sender:'robot', x:2}]` returns `[1]` although no row
has the sender `'h.man'`; the string is read as a pattern. -/
theorem C9_extract_reads_pattern :
    Store.extract ⟨senderRows, Row.empty, Row.empty, []⟩ "x" (SenderFilter.pattern "h.man")
      = Except.ok [Value.num 1] ∧
    Store.extract ⟨senderRows, Row.empty, Row.empty, []⟩ "x" (SenderFilter.pattern "h.man")
      ≠ Except.ok ((senderRows.filter (fun r => decide (senderText r = "h.man"))).map
          (fun r => r.get "x")) := by
  decide

/-- C9, amended: for every table, column name `c` and string `p` without
pattern syntax characters, `extract(c, p)` returns, in table order, the value
read at `c` from exactly those rows whose sender equals `p` as a whole string,
a row without a sender counting as having the sender `''`; the value read is
the row's own value of `c` when the row has `c`, and `undefined` when the row
lacks `c` and `c` is not the name of a member of `Object.prototype`. -/
theorem C9_extract_plain_sender (s : Store) (c p : String) (h : isPlain p = true) :
    s.extract c (SenderFilter.pattern p)
      = Except.ok ((s.data.filter (fun r => decide (senderText r = p))).map
          (fun r => r.get c)) ∧
    (∀ (r : Row) (v : Value), r.find? c = some v → r.get c = v) ∧
    (objectPrototypeNames.contains c = false →
      ∀ r : Row, r.has c = false → r.get c = Value.undefined) := by
  have hp : ∀ u ∈ codeUnits p, syntaxUnits.contains u = false := by
    intro u hu
    have := List.all_eq_true.1 h u hu
    simpa using this
  have hc : (SenderFilter.pattern p).toRegExp
      = some ⟨[Term.bol :: ((codeUnits p).map literal ++ [Term.eol])]⟩ :=
    compile_anchored_plain p hp
  refine ⟨?_, ?_, ?_⟩
  · simp only [Store.extract, hc, test_anchored_plain]
  · intro r v hv
    rw [Row.get_eq, hv]
    rfl
  · intro hn r hh
    rw [Row.has_eq] at hh
    rw [Row.get_eq, Row.inherited_of_not_mem hn]
    cases hv : r.find? c with
    | some v => simp [hv] at hh
    | none => rfl

/-- C9 amended at `extract('x', 'human')` on
`[{sender:'human', x:1}, {sender:'robot', x:2}]`, which is `[1]`. -/
theorem C9_extract_plain_sender_witness :
    isPlain "human" = true ∧
    Store.extract ⟨senderRows, Row.empty, Row.empty, []⟩ "x" (SenderFilter.pattern "human")
      = Except.ok [Value.num 1] :=
  ⟨by decide,
    (C9_extract_plain_sender ⟨senderRows, Row.empty, Row.empty, []⟩ "x" "human"
      (by decide)).1.trans (by decide)⟩

/-- C10, as stated, fails: `select(['toString'])` on `[{a: 1}]` returns the
row `{toString: Object.prototype.toString}`, a column that the original row
does not have; this holds whatever `pick` does with names read as paths. -/
theorem C10_select_inherited_name :
    (∀ deep : DeepPaths,
      Store.select ⟨[Row.ofList [("a", Value.num 1)]], Row.empty, Row.empty, []⟩ deep
          (Selector.names ["toString"]) (SenderFilter.regexp matchAll)
        = Except.ok [Row.ofList [("toString", Value.builtin "toString")]]) ∧
    (Row.ofList [("a", Value.num 1)]).has "toString" = false ∧
    (Row.ofList [("toString", Value.builtin "toString")]).has "toString" = true :=
  ⟨fun _ => rfl, by decide, by decide⟩

/-- C10, amended: for every table, every list `cols` of ordinary column names
(none the name of a member of `Object.prototype`, none `prototype`, none read
by lodash as a path) and every sender filter (a regular expression, or a
string that gives one), `select` returns one row per table row whose sender
matches the filter, in table order; each returned row has exactly those
columns of `cols` that the original row has, each with the original value; a
single column name `c` is treated as `[c]`. The call only reads the table. -/
theorem C10_select_columns (s : Store) (deep : DeepPaths) (cols : List String) (c : String)
    (f : SenderFilter) (rx : RegExp) (h : f.toRegExp = some rx)
    (hc : ∀ x ∈ cols, ordinaryName x = true) :
    s.select deep (Selector.names cols) f
      = Except.ok ((s.data.filter (fun r => rx.test (senderText r))).map
          (fun r => pick deep r cols)) ∧
    s.select deep (Selector.name c) f = s.select deep (Selector.names [c]) f ∧
    (∀ (r : Row) (k : String),
      (pick deep r cols).find? k = if k ∈ cols then r.find? k else none) := by
  refine ⟨?_, rfl, fun r k => find?_pick deep r cols hc k⟩
  simp only [Store.select, h]

/-- C10 amended at `select(['x', 'y'], /.*/)` on
`[{sender:'human', x:1}, {sender:'robot', x:2}]`. -/
theorem C10_select_columns_witness :
    (SenderFilter.regexp matchAll).toRegExp = some matchAll ∧
    (∀ x ∈ ["x", "y"], ordinaryName x = true) ∧
    Store.select ⟨senderRows, Row.empty, Row.empty, []⟩ noDeepPaths (Selector.names ["x", "y"])
        (SenderFilter.regexp matchAll)
      = Except.ok [Row.ofList [("x", Value.num 1)], Row.ofList [("x", Value.num 2)]] :=
  ⟨rfl, by decide,
    (C10_select_columns ⟨senderRows, Row.empty, Row.empty, []⟩ noDeepPaths ["x", "y"] "x"
      (SenderFilter.regexp matchAll) matchAll rfl (by decide)).1.trans (by decide)⟩

/-! ## Claims on `select` with a predicate and on its selector -/

/-- The names `keys` returns are the discovered names. -/
theorem Store.mem_keys (s : Store) (includeState : Bool) (P : List String) (k : String) :
    k ∈ s.keys includeState P ↔ s.discovered includeState k = true := by
  obtain ⟨rest, h1, _, h3⟩ := s.keys_parts includeState P
  rw [h1, List.mem_append, mem_firstOccurrences, List.mem_filter, h3 k]
  by_cases hp : k ∈ P <;> simp [hp]

/-- The column names of the example table are ordinary. -/
theorem cleanRows_ordinary (c : String) :
    Store.discovered ⟨cleanRows, Row.empty, Row.empty, []⟩ false c = true →
      (!startsWithUnderscore c) = true → ordinaryName c = true := by
  intro hd _
  rw [Store.discovered_iff] at hd
  rcases hd with ⟨r, hr, hk⟩ | ⟨h, _⟩
  · have hmem : c ∈ ["a", "_b"] := by
      rcases List.mem_cons.1 hr with e | hr
      · rw [e] at hk
        have := (Row.has_iff_mem_keys _ _).1 hk
        exact this
      · rcases List.mem_cons.1 hr with e | hr
        · rw [e] at hk
          have := (Row.has_iff_mem_keys _ _).1 hk
          exact List.mem_cons.2 (Or.inl (List.mem_singleton.1 this))
        · exact absurd hr (List.not_mem_nil _)
    rcases List.mem_cons.1 hmem with e | hmem
    · rw [e]; decide
    · rw [List.mem_singleton.1 hmem]; decide
  · exact absurd h (by decide)

theorem filter_matchAll (data : Table) :
    data.filter (fun r => matchAll.test (senderText r)) = data :=
  List.filter_eq_self.2 (fun r _ => matchAll_test (senderText r))

/-- C11, as stated, fails: on the table `[{toString: 1}, {a: 2}]`,
`select(k => true)` returns for the second row `{a: 2, toString:
Object.prototype.toString}`, which has a column that is not one of the row's
own; this holds whatever `pick` does with names read as paths. -/
theorem C11_select_inherited_column :
    (∀ deep : DeepPaths,
      Store.select ⟨inheritedRows, Row.empty, Row.empty, []⟩ deep
          (Selector.test (fun _ => true)) (SenderFilter.regexp matchAll)
        = Except.ok [Row.ofList [("toString", Value.num 1)],
            Row.ofList [("a", Value.num 2), ("toString", Value.builtin "toString")]]) ∧
    (Row.ofList [("a", Value.num 2)]).has "toString" = false ∧
    (Row.ofList [("a", Value.num 2), ("toString", Value.builtin "toString")]).has "toString"
      = true :=
  ⟨fun _ => rfl, by decide, by decide⟩

/-- C11, amended: for every table and every predicate `p` on column names
such that the column names of the table that satisfy `p` are ordinary (none
the name of a member of `Object.prototype`, none `prototype`, none read by
lodash as a path), `select(p)` with the default filter returns one row per
table row, in order, and each returned row is the original row restricted to
exactly those of its own columns that satisfy `p`; the columns picked are
`keys()` with default arguments filtered by `p`. -/
theorem C11_select_predicate (s : Store) (deep : DeepPaths) (p : String → Bool)
    (hord : ∀ c, s.discovered false c = true → p c = true → ordinaryName c = true)
    (r : Row) (hr : r ∈ s.data) (k : String) :
    s.select deep (Selector.test p) (SenderFilter.regexp matchAll)
      = Except.ok (s.data.map
          (fun r => pick deep r ((s.keys false defaultMetadata).filter p))) ∧
    (pick deep r ((s.keys false defaultMetadata).filter p)).find? k
      = if p k then r.find? k else none := by
  have hm : ∀ c, c ∈ (s.keys false defaultMetadata).filter p
      ↔ (s.discovered false c = true ∧ p c = true) := by
    intro c
    rw [List.mem_filter, Store.mem_keys]
  constructor
  · simp only [Store.select, SenderFilter.toRegExp, filter_matchAll]
  · rw [find?_pick deep r _ (fun c hc => hord c ((hm c).1 hc).1 ((hm c).1 hc).2)]
    by_cases hp : p k = true
    · by_cases hh : r.has k = true
      · have hd : s.discovered false k = true :=
          (s.discovered_iff false k).2 (Or.inl ⟨r, hr, hh⟩)
        rw [if_pos ((hm k).2 ⟨hd, hp⟩), if_pos hp]
      · have hn : r.find? k = none := by
          rw [Row.has_eq] at hh
          cases hv : r.find? k with
          | some v => simp [hv] at hh
          | none => rfl
        simp [hn]
    · rw [if_neg (fun m => hp ((hm k).1 m).2), if_neg hp]

/-- C11 amended at `select(k => !k.startsWith('_'))` on `[{a:1, _b:2}, {a:3}]`. -/
theorem C11_select_predicate_witness :
    (∀ c, Store.discovered ⟨cleanRows, Row.empty, Row.empty, []⟩ false c = true →
      (!startsWithUnderscore c) = true → ordinaryName c = true) ∧
    Row.ofList [("a", Value.num 1), ("_b", Value.num 2)] ∈ cleanRows ∧
    Store.select ⟨cleanRows, Row.empty, Row.empty, []⟩ noDeepPaths
        (Selector.test (fun k => !startsWithUnderscore k)) (SenderFilter.regexp matchAll)
      = Except.ok [Row.ofList [("a", Value.num 1)], Row.ofList [("a", Value.num 3)]] :=
  ⟨cleanRows_ordinary, by decide,
    (C11_select_predicate ⟨cleanRows, Row.empty, Row.empty, []⟩ noDeepPaths
      (fun k => !startsWithUnderscore k) cleanRows_ordinary
      (Row.ofList [("a", Value.num 1), ("_b", Value.num 2)]) (by decide) "a").1.trans
      (by decide)⟩

/-- C12: `select` fails with the invalid-selector error exactly when its
selector is neither a string, nor a list, nor a function; for a string, a list
or a predicate (and a regular expression as sender filter) it returns rows,
whatever the table contains. The call writes no field of the store. -/
theorem C12_select_invalid_selector (s : Store) (deep : DeepPaths) (sel : Selector)
    (f : SenderFilter) (rx : RegExp) (c : String) (cs : List String) (p : String → Bool) :
    (s.select deep sel f = Except.error StoreError.invalidSelector ↔ sel = Selector.other) ∧
    (∃ rows, s.select deep (Selector.name c) (SenderFilter.regexp rx) = Except.ok rows) ∧
    (∃ rows, s.select deep (Selector.names cs) (SenderFilter.regexp rx) = Except.ok rows) ∧
    (∃ rows, s.select deep (Selector.test p) (SenderFilter.regexp rx) = Except.ok rows) ∧
    (∀ (d : Table) (g t : Row) (e : List Emission),
      Store.select ⟨d, g, t, e⟩ deep Selector.other f
        = Except.error StoreError.invalidSelector) := by
  refine ⟨?_, ⟨_, rfl⟩, ⟨_, rfl⟩, ⟨_, rfl⟩, fun _ _ _ _ => rfl⟩
  constructor
  · intro h
    cases sel with
    | other => rfl
    | name c' =>
      simp only [Store.select] at h
      cases hf : f.toRegExp <;> simp [hf] at h
    | names cs' =>
      simp only [Store.select] at h
      cases hf : f.toRegExp <;> simp [hf] at h
    | test p' =>
      simp only [Store.select] at h
      cases hf : f.toRegExp <;> simp [hf] at h
  · intro h
    subst h
    rfl

/-! ## Claims on the export methods -/

/-- C13: the column list that `exportCsv` hands to the CSV encoder is `keys()`
(default arguments) with the names starting with `_` removed when `clean` is
true, and exactly `keys()` when `clean` is false, in both cases in the order
of `keys()`; with `clean` true on the rows `[{a:1,_b:2},{a:3}]` it is the
single column `a`. -/
theorem C13_csv_header (s : Store) (enc : Encoders) (separator : String) :
    s.exportCsv enc separator true
      = enc.toCsv s.cleanData
          ((s.keys false defaultMetadata).filter (fun k => !startsWithUnderscore k))
          separator ∧
    s.exportCsv enc separator false
      = enc.toCsv s.data (s.keys false defaultMetadata) separator ∧
    ((s.keys false defaultMetadata).filter (fun k => !startsWithUnderscore k)).Sublist
      (s.keys false defaultMetadata) ∧
    Store.exportCsv ⟨cleanRows, Row.empty, Row.empty, []⟩ enc separator true
      = enc.toCsv (cleanData cleanRows) ["a"] separator := by
  refine ⟨?_, ?_, List.filter_sublist _, ?_⟩
  · simp [Store.exportCsv]
  · simp [Store.exportCsv]
  · have hk : (Store.keys ⟨cleanRows, Row.empty, Row.empty, []⟩ false defaultMetadata).filter
        (fun k => !true || !startsWithUnderscore k) = ["a"] := by decide
    simp only [Store.exportCsv, if_true, hk]
    rfl

/-- C14: for the formats `csv`, `json` and `jsonl`, `exportBlob(format, clean)`
succeeds with the content `exportCsv(',', clean)`, `exportJson(clean)` or
`exportJsonL(clean)` and the MIME type `text/csv`, `application/json` or
`application/jsonl`; for every other format string it fails with the
unsupported-format error. The call writes no field of the store. -/
theorem C14_exportBlob_dispatch (s : Store) (enc : Encoders) (format : String)
    (clean : Bool) :
    s.exportBlob enc "csv" clean = Except.ok ⟨s.exportCsv enc "," clean, "text/csv"⟩ ∧
    s.exportBlob enc "json" clean = Except.ok ⟨s.exportJson enc clean, "application/json"⟩ ∧
    s.exportBlob enc "jsonl" clean
      = Except.ok ⟨s.exportJsonL enc clean, "application/jsonl"⟩ ∧
    (s.exportBlob enc format clean = Except.error (ExportError.unsupportedFormat format) ↔
      (format ≠ "csv" ∧ format ≠ "json" ∧ format ≠ "jsonl")) ∧
    ((∃ blob, s.exportBlob enc format clean = Except.ok blob) ↔
      (format = "csv" ∨ format = "json" ∨ format = "jsonl")) := by
  refine ⟨rfl, rfl, rfl, ?_, ?_⟩
  · by_cases h1 : format = "csv"
    · subst h1; simp [Store.exportBlob]
    · by_cases h2 : format = "json"
      · subst h2; simp [Store.exportBlob]
      · by_cases h3 : format = "jsonl"
        · subst h3; simp [Store.exportBlob]
        · simp [Store.exportBlob, h1, h2, h3]
  · by_cases h1 : format = "csv"
    · subst h1; simp [Store.exportBlob]
    · by_cases h2 : format = "json"
      · subst h2; simp [Store.exportBlob]
      · by_cases h3 : format = "jsonl"
        · subst h3; simp [Store.exportBlob]
        · simp [Store.exportBlob, h1, h2, h3]

/-! ## Claims on `clear` -/

theorem Store.clear_fields (s : Store) :
    s.clear.data = [] ∧ s.clear.staging = Row.empty ∧ s.clear.state = Row.empty :=
  ⟨rfl, rfl, rfl⟩

theorem Store.keys_of_empty (s : Store) (hd : s.data = []) (hs : s.state = Row.empty)
    (includeState : Bool) (P : List String) : s.keys includeState P = [] := by
  rw [List.eq_nil_iff_forall_not_mem]
  intro k hk
  rw [Store.mem_keys, Store.discovered_iff, hd, hs] at hk
  rcases hk with ⟨r, hr, _⟩ | ⟨_, h⟩
  · simp at hr
  · simp [Row.has_empty] at h

theorem Store.getAny_of_empty (s : Store) (hs : s.state = Row.empty) (ks : List String) :
    s.getAny ks = Value.undefined := by
  induction ks with
  | nil => rfl
  | cons k rest ih =>
    rw [Store.getAny, hs]
    simpa [Row.keys, Row.empty, hs] using ih

/-- C15, as stated, fails: after `clear()` the call `select(5)` (a selector
that is neither a string, a list nor a function) does not return the empty
list, it fails with the invalid-selector error, whatever `pick` does with
names read as paths; and `get('toString')` is then the function
`Object.prototype.toString`, not `undefined`. -/
theorem C15_select_after_clear_fails :
    (∀ deep : DeepPaths,
      (Store.clear ⟨senderRows, Row.empty, Row.empty, []⟩).select deep Selector.other
          (SenderFilter.regexp matchAll)
        = Except.error StoreError.invalidSelector) ∧
    (∀ deep : DeepPaths,
      (Store.clear ⟨senderRows, Row.empty, Row.empty, []⟩).select deep Selector.other
          (SenderFilter.regexp matchAll)
        ≠ Except.ok []) ∧
    (Store.clear ⟨senderRows, Row.empty, Row.empty, []⟩).get "toString"
      = Value.builtin "toString" :=
  ⟨fun _ => rfl, fun _ h => Except.noConfusion h, by decide⟩

/-- C15, amended: after `clear()` on any store the table, the staging row and
the state are empty: `keys(true)` is the empty list, `get(k)` is `undefined`
for every `k` that is not the name of a member of `Object.prototype`, `getAny`
returns `undefined` for every list, `extract` returns the empty list for every
column and `select` for every selector that is a string, a list or a
predicate, in both for every sender filter that is a regular expression or a
string giving one; and a commit made right after appends an empty row at
index 0. -/
theorem C15_clear_empties (s : Store) (deep : DeepPaths) (f : SenderFilter) (rx : RegExp)
    (h : f.toRegExp = some rx) (k c : String) (ks cs P : List String) (p : String → Bool) :
    s.clear.data = [] ∧ s.clear.staging = Row.empty ∧ s.clear.state = Row.empty ∧
    s.clear.keys true defaultMetadata = [] ∧ s.clear.keys true P = [] ∧
    (objectPrototypeNames.contains k = false → s.clear.get k = Value.undefined) ∧
    s.clear.getAny ks = Value.undefined ∧
    s.clear.extract c f = Except.ok [] ∧
    s.clear.select deep (Selector.name c) f = Except.ok [] ∧
    s.clear.select deep (Selector.names cs) f = Except.ok [] ∧
    s.clear.select deep (Selector.test p) f = Except.ok [] ∧
    s.clear.commit.1.data = [Row.empty] ∧
    s.clear.commit.2 = 0 := by
  refine ⟨rfl, rfl, rfl, Store.keys_of_empty _ rfl rfl _ _, Store.keys_of_empty _ rfl rfl _ _,
    ?_, Store.getAny_of_empty _ rfl _, ?_, ?_, ?_, ?_, ?_, rfl⟩
  · intro hk
    show Row.empty.get k = Value.undefined
    rw [Row.get_eq, Row.find?_empty, Row.inherited_of_not_mem hk]
    rfl
  · simp [Store.extract, h, Store.clear]
  · simp [Store.select, h, Store.clear]
  · simp [Store.select, h, Store.clear]
  · simp [Store.select, h, Store.clear]
  · rw [Store.commit_data]; rfl

/-- C15 amended at the store with the rows
`[{sender:'human', x:1}, {sender:'robot', x:2}]` and the filter `'human'`. -/
theorem C15_clear_empties_witness :
    (SenderFilter.pattern "human").toRegExp
      = some ⟨[Term.bol :: ((codeUnits "human").map literal ++ [Term.eol])]⟩ ∧
    (Store.clear ⟨senderRows, Row.empty, Row.empty, []⟩).extract "x"
      (SenderFilter.pattern "human") = Except.ok [] ∧
    (Store.clear ⟨senderRows, Row.empty, Row.empty, []⟩).get "x" = Value.undefined :=
  ⟨by decide,
    (C15_clear_empties ⟨senderRows, Row.empty, Row.empty, []⟩ noDeepPaths
      (SenderFilter.pattern "human")
      ⟨[Term.bol :: ((codeUnits "human").map literal ++ [Term.eol])]⟩ (by decide)
      "x" "x" [] [] [] (fun _ => true)).2.2.2.2.2.2.2.1,
    (C15_clear_empties ⟨senderRows, Row.empty, Row.empty, []⟩ noDeepPaths
      (SenderFilter.pattern "human")
      ⟨[Term.bol :: ((codeUnits "human").map literal ++ [Term.eol])]⟩ (by decide)
      "x" "x" [] [] [] (fun _ => true)).2.2.2.2.2.1 (by decide)⟩

/-- C16: `clear` emits exactly one notification, named `clear`, and emits it
before it changes anything: what a listener reads during the notification is
the table, staging row and state from before the call; after the call the
three are empty. -/
theorem C16_clear_emits_first (s : Store) :
    s.clear.emitted = s.emitted ++ [⟨"clear", s.data, s.staging, s.state⟩] ∧
    s.clear.emitted.length = s.emitted.length + 1 ∧
    s.clear.data = [] ∧ s.clear.staging = Row.empty ∧ s.clear.state = Row.empty := by
  refine ⟨rfl, ?_, rfl, rfl, rfl⟩
  show (s.emitted ++ [(⟨"clear", s.data, s.staging, s.state⟩ : Emission)]).length = _
  simp

/-! ## Claims on `update`, the table length and `_hydrate` -/

theorem Store.update_of_lt (s : Store) (i : Nat) (f : Row → Row) (h : i < s.data.length) :
    s.update i f = Updated.inside
      ⟨s.data.set i (f (s.data.getD i Row.empty)), s.state, s.staging,
        s.emitted ++ [⟨"update", s.data.set i (f (s.data.getD i Row.empty)), s.staging,
          s.state⟩]⟩ := by
  simp [Store.update, h, Store.emit]

theorem Store.update_of_gt (s : Store) (i : Nat) (f : Row → Row) (h : s.data.length < i) :
    s.update i f = Updated.beyond s (i - s.data.length) (f Row.empty) "update" := by
  have h1 : ¬ i < s.data.length := by omega
  have h2 : ¬ i = s.data.length := by omega
  have h3 : s.data.getD i Row.empty = Row.empty :=
    List.getD_eq_default _ _ (Nat.le_of_lt h)
  simp only [Store.update, h1, h2, h3, if_false]

theorem set_getD_self (l : List Row) (i : Nat) (h : i < l.length) :
    l.set i (l.getD i Row.empty) = l := by
  apply List.ext_getElem?
  intro j
  rw [List.getElem?_set]
  by_cases hij : i = j
  · subst hij
    simp [h, List.getD_eq_getElem _ _ h]
  · simp [hij]

/-- C17: for every index `i` within the table and every transform `f`, after
`update(i, f)` the row at index `i` is `f` applied to the row previously at
`i`, every other row is unchanged at its index, the table length is unchanged,
and the staging row and the state are unchanged; with the transform omitted
the table is unchanged. -/
theorem C17_update_in_range (s : Store) (i : Nat) (f : Row → Row) (h : i < s.data.length) :
    ∃ t u : Store, s.update i f = Updated.inside t ∧
      t.data[i]? = (s.data[i]?).map f ∧
      (∀ j, j ≠ i → t.data[j]? = s.data[j]?) ∧
      t.data.length = s.data.length ∧
      t.staging = s.staging ∧ t.state = s.state ∧
      s.update i defaultCallback = Updated.inside u ∧ u.data = s.data := by
  refine ⟨_, _, Store.update_of_lt s i f h, ?_, ?_, ?_, rfl, rfl,
    Store.update_of_lt s i defaultCallback h, ?_⟩
  · show (s.data.set i (f (s.data.getD i Row.empty)))[i]? = _
    rw [List.getElem?_set_self h, List.getD_eq_getElem _ _ h, List.getElem?_eq_getElem h]
    rfl
  · intro j hj
    show (s.data.set i (f (s.data.getD i Row.empty)))[j]? = _
    exact List.getElem?_set_ne (fun e => hj e.symm)
  · show (s.data.set i (f (s.data.getD i Row.empty))).length = _
    exact List.length_set _ _ _
  · exact set_getD_self s.data i h

/-- C17 at `update(1, r => ({x: 5}))` on
`[{sender:'human', x:1}, {sender:'robot', x:2}]`. -/
theorem C17_update_in_range_witness :
    1 < (Store.mk senderRows Row.empty Row.empty []).data.length ∧
    ∃ t u : Store,
      Store.update ⟨senderRows, Row.empty, Row.empty, []⟩ 1
        (fun _ => Row.ofList [("x", Value.num 5)]) = Updated.inside t ∧
      t.data[1]? = (senderRows[1]?).map (fun _ => Row.ofList [("x", Value.num 5)]) ∧
      (∀ j, j ≠ 1 → t.data[j]? = senderRows[j]?) ∧
      t.data.length = senderRows.length ∧
      t.staging = Row.empty ∧ t.state = Row.empty ∧
      Store.update ⟨senderRows, Row.empty, Row.empty, []⟩ 1 defaultCallback
        = Updated.inside u ∧ u.data = senderRows :=
  ⟨by decide,
    C17_update_in_range ⟨senderRows, Row.empty, Row.empty, []⟩ 1
      (fun _ => Row.ofList [("x", Value.num 5)]) (by decide)⟩

/-- C18, as stated, fails: `update(1, r => ({a: 1}))` on a new store (table
length 0) raises no error; the array afterwards has an empty slot at index 0
and the row `{a: 1}` at index 1, so the table is not unchanged, and the
notification `update` is emitted. -/
theorem C18_update_beyond_writes :
    Store.new.update 1 (fun _ => Row.ofList [("a", Value.num 1)])
      = Updated.beyond Store.new 1 (Row.ofList [("a", Value.num 1)]) "update" ∧
    (Store.new.update 1 (fun _ => Row.ofList [("a", Value.num 1)])).slots
      = [none, some (Row.ofList [("a", Value.num 1)])] ∧
    (Store.new.update 1 (fun _ => Row.ofList [("a", Value.num 1)])).slots
      ≠ Store.new.data.map some ∧
    (Store.new.update 1 (fun _ => Row.ofList [("a", Value.num 1)])).notices = ["update"] := by
  decide

/-- C18, amended: for every index beyond the table length, `update(index,
transform)` raises no error: it writes `transform({})` at the index, which
leaves the slots from the former end of the table up to the index empty and
makes the array length `index + 1`, and it emits one notification, `update`,
after the notifications emitted before; the earlier rows, the staging row and
the state are unchanged. -/
theorem C18_update_beyond_range (s : Store) (i : Nat) (f : Row → Row)
    (h : s.data.length < i) :
    s.update i f = Updated.beyond s (i - s.data.length) (f Row.empty) "update" ∧
    (s.update i f).slots.length = i + 1 ∧
    (s.update i f).slots[i]? = some (some (f Row.empty)) ∧
    (∀ j, s.data.length ≤ j → j < i → (s.update i f).slots[j]? = some none) ∧
    (s.update i f).slots.take s.data.length = s.data.map some ∧
    (s.update i f).staging = s.staging ∧ (s.update i f).state = s.state ∧
    (s.update i f).notices = s.emitted.map Emission.name ++ ["update"] := by
  rw [Store.update_of_gt s i f h]
  have hl : (s.data.map some ++ List.replicate (i - s.data.length) (none : Option Row)).length
      = i := by
    simp; omega
  refine ⟨rfl, ?_, ?_, ?_, ?_, rfl, rfl, rfl⟩
  · simp [Updated.slots]; omega
  · show (s.data.map some ++ List.replicate (i - s.data.length) none
      ++ [some (f Row.empty)])[i]? = _
    rw [List.getElem?_append_right (by rw [hl]), hl]
    simp
  · intro j h1 h2
    show (s.data.map some ++ List.replicate (i - s.data.length) none
      ++ [some (f Row.empty)])[j]? = _
    rw [List.getElem?_append_left (by rw [hl]; exact h2),
      List.getElem?_append_right (by simpa using h1), List.getElem?_replicate]
    simp
    omega
  · show (s.data.map some ++ List.replicate (i - s.data.length) none
      ++ [some (f Row.empty)]).take s.data.length = _
    rw [List.append_assoc]
    exact List.take_left' (by simp)

/-- C18 amended at `update(2, r => r)` on a new store. -/
theorem C18_update_beyond_range_witness :
    Store.new.data.length < 2 ∧
    (Store.new.update 2 defaultCallback).slots = [none, none, some Row.empty] ∧
    (Store.new.update 2 defaultCallback).notices = ["update"] :=
  ⟨by decide,
    (congrArg Updated.slots (C18_update_beyond_range Store.new 2 defaultCallback
      (by decide)).1).trans (by decide),
    (C18_update_beyond_range Store.new 2 defaultCallback (by decide)).2.2.2.2.2.2.2⟩

/-- C19, as stated, fails: `_hydrate({data: [], state: {}})` on a store with
one committed row leaves a table of length 0. -/
theorem C19_hydrate_shrinks :
    (Store.new.commit.1._hydrate (some []) (some Row.empty)).data.length
      < Store.new.commit.1.data.length := by
  decide

/-- C19, amended: `set` keeps the table length, `commit` raises it by one,
`update` keeps it or raises it, so after each of them the table length is
greater than or equal to the length before (the queries and exports return
values and write no field of the store); `_hydrate` replaces the table by the
data passed, so the length after it is the length of that data. -/
theorem C19_table_length (s : Store) (key : SetKey) (value : Value) (quiet : Bool)
    (i : Nat) (f : Row → Row) (d : Option Table) (st : Option Row) :
    (s.set key value quiet).data.length = s.data.length ∧
    s.commit.1.data.length = s.data.length + 1 ∧
    s.data.length ≤ (s.update i f).slots.length ∧
    (s._hydrate d st).data.length = (d.getD []).length := by
  refine ⟨by rw [Store.set_data], by rw [Store.commit_data]; simp, ?_, rfl⟩
  rcases Nat.lt_trichotomy i s.data.length with h | h | h
  · rw [Store.update_of_lt s i f h]
    simp [Updated.slots]
  · subst h
    simp [Store.update, Updated.slots, Store.emit]
  · rw [Store.update_of_gt s i f h]
    simp [Updated.slots]

/-- C20: after `_hydrate({data: d, state: st})` the table equals `d` and
`get(k)` is the value of `k` in `st` for every `k`, an omitted `data` or
`state` being the empty table or the empty row (on which the value of `k` is
`undefined` for every `k` that is not the name of a member of
`Object.prototype`); the staging row is what it was before, so a commit made
right after appends the former staging row at index `length(d)`; and
`_hydrate` emits no notification. -/
theorem C20_hydrate_replaces (s : Store) (d : Table) (st : Row) (k : String) :
    (s._hydrate (some d) (some st)).data = d ∧
    (s._hydrate (some d) (some st)).get k = st.get k ∧
    (s._hydrate none (some st)).data = [] ∧
    (s._hydrate (some d) none).state = Row.empty ∧
    (s._hydrate (some d) none).get k = Row.empty.get k ∧
    (objectPrototypeNames.contains k = false →
      (s._hydrate (some d) none).get k = Value.undefined) ∧
    (s._hydrate (some d) (some st)).staging = s.staging ∧
    (s._hydrate (some d) (some st)).commit.1.data = d ++ [s.staging] ∧
    (s._hydrate (some d) (some st)).commit.2 = d.length ∧
    (s._hydrate (some d) (some st)).emitted = s.emitted := by
  refine ⟨rfl, rfl, rfl, rfl, rfl, ?_, rfl, ?_, ?_, rfl⟩
  · intro hk
    show Row.empty.get k = Value.undefined
    rw [Row.get_eq, Row.find?_empty, Row.inherited_of_not_mem hk]
    rfl
  · rw [Store.commit_data]; rfl
  · rw [Store.commit_index]; rfl

/-! ## Claims on `makeFilename` -/

theorem Store.getAny_eq_find (s : Store) (ks : List String) :
    s.getAny ks =
      match ks.find? (fun k => s.state.has k) with
      | some k => s.state.get k
      | none => Value.undefined := by
  induction ks with
  | nil => rfl
  | cons k rest ih =>
    have hk : s.state.keys.contains k = s.state.has k := by
      by_cases h : s.state.has k = true
      · rw [h]; simpa using (Row.has_iff_mem_keys _ _).1 h
      · have h' : s.state.has k = false := by simpa using h
        rw [h']
        have : k ∉ s.state.keys := fun m => h ((Row.has_iff_mem_keys _ _).2 m)
        simpa using this
    rw [Store.getAny, hk, List.find?_cons]
    by_cases h : s.state.has k = true
    · simp [h]
    · have h' : s.state.has k = false := by simpa using h
      simp only [h', Bool.false_eq_true, if_false]
      exact ih

theorem extension_part (extension : String) :
    (if (extension != "") = true then "." ++ extension else "")
      = if extension = "" then "" else "." ++ extension := by
  by_cases h : extension = "" <;> simp [h]

/-- C21: when none of the columns `id`, `participant`, `participant_id` is
present in the state, `makeFilename(prefix, extension)` is
`prefix + '--' + d`, `d` being the date stamp, followed by `'.' + extension`
when the extension is not empty and by nothing when it is empty: there is no
id segment and no empty double-dash segment; with the defaults it is
`'study--' + d + '.csv'`. -/
theorem C21_filename_without_id (s : Store) (d pfx extension : String)
    (h : ∀ k ∈ defaultIdColumns, s.state.has k = false) :
    s.makeFilename d pfx extension
      = pfx ++ "--" ++ d ++ (if extension = "" then "" else "." ++ extension) ∧
    s.makeFilename d pfx "" = pfx ++ "--" ++ d ∧
    s.makeFilename d "study" "csv" = "study--" ++ d ++ ".csv" := by
  have hid : s.guessId defaultIdColumns = Value.undefined := by
    rw [Store.guessId, Store.getAny_eq_find]
    have : defaultIdColumns.find? (fun k => s.state.has k) = none := by
      rw [List.find?_eq_none]
      intro k hk
      simp [h k hk]
    rw [this]
  have hmain : ∀ e : String, s.makeFilename d pfx e
      = pfx ++ "--" ++ d ++ (if e = "" then "" else "." ++ e) := by
    intro e
    simp only [Store.makeFilename, hid, Value.truthy, Bool.false_eq_true, if_false,
      extension_part, String.append_empty]
  have hstudy : s.makeFilename d "study" "csv" = "study" ++ "--" ++ d ++ ("." ++ "csv") := by
    simp only [Store.makeFilename, hid, Value.truthy, Bool.false_eq_true, if_false,
      String.append_empty]
    rfl
  refine ⟨hmain extension, ?_, ?_⟩
  · rw [hmain ""]; simp
  · rw [hstudy]; rfl

/-- C21 at a new store with the date stamp `2026-11-06`. -/
theorem C21_filename_without_id_witness :
    (∀ k ∈ defaultIdColumns, Store.new.state.has k = false) ∧
    Store.new.makeFilename "2026-11-06" "study" "csv" = "study--2026-11-06.csv" :=
  ⟨by decide,
    (C21_filename_without_id Store.new "2026-11-06" "study" "csv" (by decide)).1.trans
      (by decide)⟩

/-- C22, as stated, fails: with the state `{id: ''}` the column `id` is present
and `guessId` returns `''`, yet `makeFilename('study', 'csv')` has no id
segment (the claim gives `study----2026-11-06.csv`); and with the state
`{id: 'p1'}` and an empty extension the result does not end in a dot. -/
theorem C22_falsy_id_left_out :
    (Store.new.set (SetKey.column "id") (Value.str "") false).state.has "id" = true ∧
    (Store.new.set (SetKey.column "id") (Value.str "") false).guessId defaultIdColumns
      = Value.str "" ∧
    (Store.new.set (SetKey.column "id") (Value.str "") false).makeFilename
      "2026-11-06" "study" "csv" = "study--2026-11-06.csv" ∧
    (Store.new.set (SetKey.column "id") (Value.str "") false).makeFilename
      "2026-11-06" "study" "csv"
      ≠ "study" ++ "--" ++ (Value.str "").toText ++ "--" ++ "2026-11-06" ++ "." ++ "csv" ∧
    (Store.new.set (SetKey.column "id") (Value.str "p1") false).makeFilename
      "2026-11-06" "study" "" = "study--p1--2026-11-06" ∧
    (Store.new.set (SetKey.column "id") (Value.str "p1") false).makeFilename
      "2026-11-06" "study" ""
      ≠ "study" ++ "--" ++ (Value.str "p1").toText ++ "--" ++ "2026-11-06" ++ "." ++ "" := by
  decide

/-- C22, amended: when at least one of the columns `id`, `participant`,
`participant_id` is present in the state and the value `v` of the first
present one (the value `guessId` returns) counts as true, then
`makeFilename(prefix, extension)` is
`prefix + '--' + v + '--' + date stamp`, followed by `'.' + extension` when the
extension is not empty. -/
theorem C22_filename_with_id (s : Store) (d pfx extension k : String)
    (h1 : defaultIdColumns.find? (fun c => s.state.has c) = some k)
    (h2 : (s.state.get k).truthy = true) :
    s.guessId defaultIdColumns = s.state.get k ∧
    s.makeFilename d pfx extension
      = pfx ++ "--" ++ (s.state.get k).toText ++ "--" ++ d ++
          (if extension = "" then "" else "." ++ extension) := by
  have hid : s.guessId defaultIdColumns = s.state.get k := by
    rw [Store.guessId, Store.getAny_eq_find, h1]
  refine ⟨hid, ?_⟩
  simp only [Store.makeFilename, hid, h2, if_true, extension_part, String.append_assoc]

/-- C22 amended at the state `{participant: 'p1'}` with the date stamp
`2026-11-06`. -/
theorem C22_filename_with_id_witness :
    defaultIdColumns.find?
        (fun c => (Store.new.set (SetKey.column "participant") (Value.str "p1")
          false).state.has c) = some "participant" ∧
    ((Store.new.set (SetKey.column "participant") (Value.str "p1") false).state.get
        "participant").truthy = true ∧
    (Store.new.set (SetKey.column "participant") (Value.str "p1") false).makeFilename
      "2026-11-06" "study" "csv" = "study--p1--2026-11-06.csv" :=
  ⟨by decide, by decide,
    (C22_filename_with_id (Store.new.set (SetKey.column "participant") (Value.str "p1") false)
      "2026-11-06" "study" "csv" "participant" (by decide) (by decide)).2.trans (by decide)⟩

/-! ## Claims that relate two computations -/

theorem Store.keysSingleSort_unfold (s : Store) (includeState : Bool) (P : List String) :
    s.keysSingleSort includeState P =
      intersection P (sortedUniq (jsSort (flatten
        (if includeState then s.data.map Row.keys ++ [s.state.keys]
          else s.data.map Row.keys)))) ++
      difference (sortedUniq (jsSort (flatten
        (if includeState then s.data.map Row.keys ++ [s.state.keys]
          else s.data.map Row.keys))))
        (intersection P (sortedUniq (jsSort (flatten
          (if includeState then s.data.map Row.keys ++ [s.state.keys]
            else s.data.map Row.keys))))) := rfl

/-- C23: in `keys` the second sort changes nothing: for every list of column
names, removing neighbouring duplicates from the sorted list gives a list that
is sorted and without duplicates, so sorting it again returns it; and `keys`
computed with a single sort returns the same list as the implementation with
two sorts, for every store, `includeState` flag and priority list. -/
theorem C23_second_sort_noop (l : List String) (s : Store) (includeState : Bool)
    (P : List String) :
    (sortedUniq (jsSort l)).Pairwise (fun a b => jsLe a b = true) ∧
    (sortedUniq (jsSort l)).Nodup ∧
    jsSort (sortedUniq (jsSort l)) = sortedUniq (jsSort l) ∧
    s.keysSingleSort includeState P = s.keys includeState P := by
  have hu : ∀ m : List String, (sortedUniq (jsSort m)).Pairwise jsLt :=
    fun m => (sortedUniq_spec (jsSort m) (sorted_jsSort m)).1
  have hs : ∀ m : List String, jsSort (sortedUniq (jsSort m)) = sortedUniq (jsSort m) :=
    fun m => jsSort_of_sorted _ ((hu m).imp (fun h => h.1))
  refine ⟨(hu l).imp (fun h => h.1), (hu l).imp (fun h => h.2), hs l, ?_⟩
  rw [Store.keysSingleSort_unfold, Store.keys_unfold, Store.uniqueKeys, hs]

/-- Reading the column `c` from `pick(r, [c])` gives what reading it from `r`
gives, for a name that is not read as a path, unless `r` has an own column
`constructor` or `prototype` and `c` is that name (`pick` does not copy
these). -/
theorem get_pick_singleton (deep : DeepPaths) (r : Row) (c : String)
    (hkey : reIsDeepProp c = false)
    (hg : (c = "constructor" ∨ c = "prototype") → r.has c = false) :
    (pick deep r [c]).get c = r.get c := by
  have hstep : pick deep r [c]
      = if hasIn r c then baseSet Row.empty c (r.get c) else Row.empty := by
    unfold pick pickStep isKey
    simp [hkey]
  have hnone : r.has c = false → r.get c = inherited c := by
    intro hh
    rw [Row.has_eq] at hh
    rw [Row.get_eq]
    cases hv : r.find? c with
    | some v => simp [hv] at hh
    | none => rfl
  have hempty : Row.empty.get c = inherited c := by
    rw [Row.get_eq, Row.find?_empty]
    rfl
  rw [hstep]
  by_cases hin : hasIn r c = true
  · rw [if_pos hin]
    unfold baseSet
    by_cases hp : c = "__proto__"
    · subst hp
      simp only [beq_self_eq_true, Bool.true_or, if_true]
      rw [hempty, Row.get_eq, Row.find?_proto]
      rfl
    · by_cases hcp : c = "constructor" ∨ c = "prototype"
      · have hgd : (c == "__proto__" || c == "constructor" || c == "prototype") = true := by
          rcases hcp with e | e <;> simp [e]
        rw [if_pos hgd, hempty, hnone (hg hcp)]
      · have hgd : (c == "__proto__" || c == "constructor" || c == "prototype") = false := by
          simp only [not_or] at hcp
          simp [hp, hcp.1, hcp.2]
        rw [hgd]
        simp only [Bool.false_eq_true, if_false]
        rw [Row.get_eq (Row.empty.put c (r.get c)), Row.find?_put _ _ _ _ hp]
        simp
  · have hin' : hasIn r c = false := by simpa using hin
    rw [hin']
    simp only [Bool.false_eq_true, if_false]
    unfold hasIn at hin'
    rw [Bool.or_eq_false_iff] at hin'
    rw [hempty, hnone hin'.1]

/-- C24, as stated, fails: on the table `[{constructor: 1}]` the call
`extract('constructor')` returns `[1]`, while `select('constructor')` returns
the row `{}` (lodash `pick` never copies the name `constructor`), from which
reading `constructor` gives the function `Object`; this holds whatever `pick`
does with names read as paths. -/
theorem C24_select_drops_constructor :
    Store.extract ⟨[Row.ofList [("constructor", Value.num 1)]], Row.empty, Row.empty, []⟩
        "constructor" (SenderFilter.regexp matchAll)
      = Except.ok [Value.num 1] ∧
    (∀ deep : DeepPaths,
      Store.select ⟨[Row.ofList [("constructor", Value.num 1)]], Row.empty, Row.empty, []⟩
          deep (Selector.name "constructor") (SenderFilter.regexp matchAll)
        = Except.ok [Row.empty]) ∧
    Row.empty.get "constructor" = Value.builtin "constructor" ∧
    (∀ deep : DeepPaths,
      Store.extract ⟨[Row.ofList [("constructor", Value.num 1)]], Row.empty, Row.empty, []⟩
          "constructor" (SenderFilter.regexp matchAll)
        ≠ (Store.select ⟨[Row.ofList [("constructor", Value.num 1)]], Row.empty, Row.empty,
              []⟩ deep (Selector.name "constructor") (SenderFilter.regexp matchAll)).map
            (fun rows => rows.map (fun r => r.get "constructor"))) :=
  ⟨by decide, fun _ => rfl, by decide, fun deep h => by
    have h1 : Store.select ⟨[Row.ofList [("constructor", Value.num 1)]], Row.empty, Row.empty,
        []⟩ deep (Selector.name "constructor") (SenderFilter.regexp matchAll)
        = Except.ok [Row.empty] := rfl
    rw [h1] at h
    exact absurd h (by decide)⟩

/-- C24, amended: `select` and `extract` apply the same sender filter, so for
every column name and filter both keep the same rows in the same order; and
for every table, sender filter `f` (a string or a regular expression; the
default when omitted) and column name `c` that lodash does not read as a path
and that, when it is `constructor` or `prototype`, no row of the table has as
a column, `extract(c, f)` is the list obtained from `select(c, f)` by reading
column `c` from each returned row. -/
theorem C24_extract_via_select (s : Store) (deep : DeepPaths) (c : String) (f : SenderFilter)
    (hkey : reIsDeepProp c = false)
    (hg : (c = "constructor" ∨ c = "prototype") → ∀ r ∈ s.data, r.has c = false) :
    s.extract c f
      = (s.select deep (Selector.name c) f).map (fun rows => rows.map (fun r => r.get c)) ∧
    s.extract c (SenderFilter.regexp matchAll)
      = (s.select deep (Selector.name c) (SenderFilter.regexp matchAll)).map
          (fun rows => rows.map (fun r => r.get c)) ∧
    (∀ (x : String) (g : SenderFilter),
      (s.extract x g).map List.length = (s.select deep (Selector.name x) g).map List.length) ∧
    (∀ r ∈ s.data, (pick deep r [c]).get c = r.get c) := by
  have key : ∀ g : SenderFilter, s.extract c g
      = (s.select deep (Selector.name c) g).map
          (fun rows => rows.map (fun r => r.get c)) := by
    intro g
    simp only [Store.extract, Store.select]
    cases g.toRegExp with
    | none => rfl
    | some rx =>
      simp only [Except.map, List.map_map]
      congr 1
      apply List.map_congr_left
      intro r hr
      exact (get_pick_singleton deep r c hkey
        (fun h => hg h r (List.mem_filter.1 hr).1)).symm
  refine ⟨key f, key _, ?_, fun r hr => get_pick_singleton deep r c hkey (fun h => hg h r hr)⟩
  intro x g
  simp only [Store.extract, Store.select]
  cases g.toRegExp with
  | none => rfl
  | some rx => simp [Except.map]

/-- C24 amended at `extract('x', 'human')` and `select('x', 'human')` on
`[{sender:'human', x:1}, {sender:'robot', x:2}]`. -/
theorem C24_extract_via_select_witness :
    reIsDeepProp "x" = false ∧
    Store.extract ⟨senderRows, Row.empty, Row.empty, []⟩ "x" (SenderFilter.pattern "human")
      = (Store.select ⟨senderRows, Row.empty, Row.empty, []⟩ noDeepPaths (Selector.name "x")
          (SenderFilter.pattern "human")).map (fun rows => rows.map (fun r => r.get "x")) :=
  ⟨by decide,
    (C24_extract_via_select ⟨senderRows, Row.empty, Row.empty, []⟩ noDeepPaths "x"
      (SenderFilter.pattern "human") (by decide)
      (fun h => absurd h (by decide))).1⟩

theorem lookup_filter_key (drop : String → Bool) (l : List (String × Value)) (k : String) :
    (l.filter (fun e => !drop e.1)).lookup k = if drop k then none else l.lookup k := by
  induction l with
  | nil => simp
  | cons e rest ih =>
    obtain ⟨ek, ev⟩ := e
    by_cases hd : drop ek = true
    · simp only [List.filter_cons, hd, Bool.not_true, Bool.false_eq_true, if_false, ih,
        lookup_cons_ite]
      by_cases hk : k = ek
      · subst hk; simp [hd]
      · simp [hk]
    · have hd' : drop ek = false := by simpa using hd
      simp only [List.filter_cons, hd', Bool.not_false, if_true, lookup_cons_ite, ih]
      by_cases hk : k = ek
      · subst hk; simp [hd']
      · simp [hk]

theorem has_omit (r : Row) (drop : String → Bool) (k : String) :
    (r.omit drop).has k = (r.has k && !drop k) := by
  rw [Row.has_eq, Row.has_eq]
  show ((r.entries.filter (fun e => !drop e.1)).lookup k).isSome = _
  rw [lookup_filter_key]
  by_cases hd : drop k = true
  · simp [hd]
  · have hd' : drop k = false := by simpa using hd
    simp [hd', Row.find?]

theorem Store.discovered_cleaned (s : Store) (k : String) :
    s.cleaned.discovered false k = (s.discovered false k && !startsWithUnderscore k) := by
  simp only [Store.discovered, Store.cleaned, Store.cleanData, LabJs.cleanData,
    Bool.false_and, Bool.or_false]
  induction s.data with
  | nil => simp
  | cons r rest ih =>
    simp only [List.map_cons, List.any_cons, has_omit, ih]
    cases r.has k <;> cases startsWithUnderscore k <;> simp

/-- Two strictly ascending lists with the same members are equal. -/
theorem strict_sorted_ext : ∀ (l₁ l₂ : List String), l₁.Pairwise jsLt → l₂.Pairwise jsLt →
    (∀ k, k ∈ l₁ ↔ k ∈ l₂) → l₁ = l₂
  | [], [], _, _, _ => rfl
  | [], b :: bs, _, _, h => absurd ((h b).2 (List.mem_cons_self _ _)) (by simp)
  | a :: as, [], _, _, h => absurd ((h a).1 (List.mem_cons_self _ _)) (by simp)
  | a :: as, b :: bs, h1, h2, h => by
    have p1 := List.pairwise_cons.1 h1
    have p2 := List.pairwise_cons.1 h2
    have hab : a = b := by
      by_contra hne
      have ha : a ∈ bs := by
        rcases List.mem_cons.1 ((h a).1 (List.mem_cons_self _ _)) with e | m
        · exact absurd e hne
        · exact m
      have hb : b ∈ as := by
        rcases List.mem_cons.1 ((h b).2 (List.mem_cons_self _ _)) with e | m
        · exact absurd e.symm hne
        · exact m
      exact hne (jsLe_antisymm (p1.1 b hb).1 (p2.1 a ha).1)
    subst hab
    congr 1
    apply strict_sorted_ext as bs p1.2 p2.2
    intro k
    constructor
    · intro m
      rcases List.mem_cons.1 ((h k).1 (List.mem_cons_of_mem _ m)) with e | m'
      · exact absurd e.symm (p1.1 k m).2
      · exact m'
    · intro m
      rcases List.mem_cons.1 ((h k).2 (List.mem_cons_of_mem _ m)) with e | m'
      · exact absurd e.symm (p2.1 k m).2
      · exact m'

theorem defaultMetadata_plain (k : String) (h : k ∈ defaultMetadata) :
    startsWithUnderscore k = false := by
  have hall : ∀ c ∈ defaultMetadata, startsWithUnderscore c = false := by decide
  exact hall k h

/-- The header of the clean export is the list `keys` gives on the cleaned
rows. -/
theorem Store.cleanHeader_eq (s : Store) :
    s.cleanHeader = s.cleaned.keys false defaultMetadata := by
  obtain ⟨rest, h1, h2, h3⟩ := s.keys_parts false defaultMetadata
  obtain ⟨rest', h1', h2', h3'⟩ := s.cleaned.keys_parts false defaultMetadata
  have hfront : defaultMetadata.filter (s.cleaned.discovered false)
      = defaultMetadata.filter (s.discovered false) := by
    apply List.filter_congr
    intro k hk
    rw [Store.discovered_cleaned, defaultMetadata_plain k hk]
    simp
  have hfilter : (firstOccurrences (defaultMetadata.filter (s.discovered false))).filter
      (fun k => !startsWithUnderscore k)
      = firstOccurrences (defaultMetadata.filter (s.discovered false)) := by
    apply List.filter_eq_self.2
    intro k hk
    rw [mem_firstOccurrences, List.mem_filter] at hk
    simp [defaultMetadata_plain k hk.1]
  have hrest : rest.filter (fun k => !startsWithUnderscore k) = rest' := by
    apply strict_sorted_ext _ _ (h2.filter _) h2'
    intro k
    rw [List.mem_filter, h3 k, h3' k, Store.discovered_cleaned]
    cases s.discovered false k <;> cases startsWithUnderscore k <;> simp
  have hsimp : s.cleanHeader
      = (s.keys false defaultMetadata).filter (fun k => !startsWithUnderscore k) := by
    simp [Store.cleanHeader]
  rw [hsimp, h1, h1', hfront, List.filter_append, hfilter, hrest]

/-- C25: the header filter of the CSV export and `cleanData` agree: the header
`exportCsv` uses when `clean` is true (`keys()` without the names starting
with `_`) is the column list that `keys()` with default arguments gives on the
`cleanData` rows; so every column of a clean row is a header column and every
header column occurs in some clean row. -/
theorem C25_header_matches_clean_rows (s : Store) (enc : Encoders) (separator : String)
    (k : String) :
    s.exportCsv enc separator true = enc.toCsv s.cleanData s.cleanHeader separator ∧
    s.cleanHeader = s.cleaned.keys false defaultMetadata ∧
    s.cleaned.data = s.data.map (fun r => r.omit startsWithUnderscore) ∧
    (k ∈ s.cleanHeader ↔ ∃ r ∈ s.cleanData, r.has k = true) ∧
    Store.cleanHeader ⟨cleanRows, Row.empty, Row.empty, []⟩ = ["a"] := by
  refine ⟨rfl, s.cleanHeader_eq, rfl, ?_, by decide⟩
  rw [s.cleanHeader_eq, Store.mem_keys, Store.discovered_iff]
  simp [Store.cleaned]

end LabJs
